import Mathlib

/-!
Verification of the fixed-capacity ordered map (`FixedMap`) of the
fixed-containers library against its specification.

The repository sources available are `src/include/fixed_containers/fixed_map.hpp`
(the map container layer) and `src/test/enum_map_test.cpp`.  The tree engine
(`fixed_red_black_tree.hpp`), the iterator adapter (`bidirectional_iterator.hpp`)
and the entry view (`pair_view.hpp`) are declared as dependencies but their code
is not in `src/`; those parts are modelled from the specification, as noted in
the doc comment of each affected definition.

Modelling conventions:
* A C++ function that aborts the process on a precondition violation
  (capacity exceeded) is modelled as returning `Option`, with `none` for the
  aborting (never-completing) path.
* `at` routes a failed lookup through the checking policy; it is modelled as
  `Except`, the `error` payload recording the single policy invocation with the
  arguments the C++ code passes (key, current size, call site).
* Iterators are modelled by their `current_index_` (the only state the C++
  `PairProvider` equality and navigation depend on, besides the tree pointer,
  which is constant for iterators of one container).
* Slot identity: the spec leaves the arena's index reuse order unspecified
  ("no ordering guarantee on which freed index is reused next").  The model
  allocates from a LIFO pool of free indices and keeps each surviving entry on
  its slot across deletions; this fixes the observable behaviour up to a
  renaming of slot indices, which no specified observable distinguishes.
-/

namespace FixedContainers

open Batteries (RBColor)
open Batteries (RBNode)

/-- Slot index into the node arena; models the C++ `NodeIndex` (`std::size_t`). -/
abbrev NodeIndex : Type := Nat

/-- Modelled from the spec: `fixed_red_black_tree.hpp` (which defines
`fixed_red_black_tree_detail::NULL_INDEX`) is not under `src/`.  Spec §3
reserves a "null" sentinel meaning "no node / absent subtree"; `NodeIndex` is a
`std::size_t`, whose maximum value `2^64 - 1` is the reserved representation
(no arena of that many slots is constructible, so it is never a slot index). -/
def NULL_INDEX : NodeIndex := 2 ^ 64 - 1

/-- An occupied arena slot: key, mapped value, and the slot index it occupies
(spec §3: "Node: key, value, parent index, left-child index, right-child index,
a color bit"; "Node identity = its slot index").  The parent/child links and the
color bit are represented structurally by the enclosing functional tree. -/
structure Ent (K V : Type) where
  key : K
  val : V
  idx : NodeIndex
deriving DecidableEq

/-- The comparator over occupied slots: compares keys only.  Models the
`Compare = std::less<K>` default comparator acting on node keys. -/
def entCmp {K V : Type} [LinearOrder K] : Ent K V → Ent K V → Ordering :=
  fun a b => compare a.key b.key

/-- The descent cut used to locate the slot of key `k`. -/
def keyCut {K V : Type} [LinearOrder K] (k : K) : Ent K V → Ordering :=
  fun e => compare k e.key

instance entCmpTransCmp {K V : Type} [LinearOrder K] :
    Batteries.TransCmp (entCmp (K := K) (V := V)) where
  symm a b := Batteries.OrientedCmp.symm (x := a.key) (y := b.key)
  le_trans h1 h2 :=
    @Batteries.TransCmp.le_trans _ (fun x y : _ => compare x y) _ _ _ _ h1 h2

instance keyCutIsStrictCut {K V : Type} [LinearOrder K] (k : K) :
    Batteries.RBNode.IsStrictCut (entCmp (K := K) (V := V)) (keyCut k) where
  le_lt_trans h1 h2 :=
    @Batteries.TransCmp.lt_le_trans _ (fun x y : _ => compare x y) _ _ _ _ h2 h1
  le_gt_trans h1 h2 := by
    revert h2
    exact Decidable.not_imp_not.1
      (fun h3 =>
        @Batteries.TransCmp.le_trans _ (fun x y : _ => compare x y) _ _ _ _ h3 h1)
  exact h :=
    (@Batteries.TransCmp.cmp_congr_left _ (fun x y : _ => compare x y) _ _ _ _ h).symm

instance rbColorDecEq : DecidableEq RBColor := fun a b => by
  cases a <;> cases b <;> first | exact isTrue rfl | exact isFalse nofun

/-- Structural decidable equality for `Batteries.RBNode` (not provided by the
library); needed to model the `this == &other` identity short-circuit of
`operator==` (same address implies structurally equal model values). -/
def rbNodeDecEq {α : Type} [DecidableEq α] : (a b : RBNode α) → Decidable (a = b)
  | .nil, .nil => isTrue rfl
  | .nil, .node .. => isFalse nofun
  | .node .., .nil => isFalse nofun
  | .node c1 l1 v1 r1, .node c2 l2 v2 r2 =>
    match rbColorDecEq c1 c2 with
    | isFalse h => isFalse (by intro he; cases he; exact h rfl)
    | isTrue hc =>
      match rbNodeDecEq l1 l2 with
      | isFalse h => isFalse (by intro he; cases he; exact h rfl)
      | isTrue hl =>
        match decEq v1 v2 with
        | isFalse h => isFalse (by intro he; cases he; exact h rfl)
        | isTrue hv =>
          match rbNodeDecEq r1 r2 with
          | isFalse h => isFalse (by intro he; cases he; exact h rfl)
          | isTrue hr => isTrue (by rw [hc, hl, hv, hr])

instance {α : Type} [DecidableEq α] : DecidableEq (RBNode α) := rbNodeDecEq

/-- Modelled from the spec: the tree engine
(`fixed_red_black_tree_detail::FixedRedBlackTree<K, V, CAPACITY, Compare, ...>`)
is not under `src/`.  Per spec §3 the tree "owns the slot arena (capacity N), a
root index, and a strict-weak-order comparator" and maintains the standard
red-black scheme.  The model represents the reachable occupied slots as a
functional red-black tree of `Ent` values (insertion and deletion use the
standard red-black rebalancing, and the fix-ups terminate "by coloring the root
black", spec §4.2) together with the pool of free slot indices of the arena
(`FixedIndexBasedPoolStorage`); the spec fixes no reuse order for freed
indices, and the model reuses them LIFO. -/
structure FixedRedBlackTree (K V : Type) (CAPACITY : Nat) where
  root : RBNode (Ent K V)
  freeStack : List NodeIndex
deriving DecidableEq

namespace FixedRedBlackTree

variable {K V : Type} [LinearOrder K] {C : Nat}

/-- The descent result of `index_of_node_with_parent` (spec §4.2
`locate_with_parent`).  Only the `i` component (the index of the found node, or
the slot "where a new node would attach" so that "insertion never re-descends")
is consumed by the map layer in `src/`; the parent link component is internal
to the missing tree engine and is not modelled. -/
structure NodeIndexAndParentIndex where
  i : NodeIndex
deriving DecidableEq

/-- Modelled from the spec (§3 Lifecycle): "arena/tree start empty at container
construction"; the arena's free pool initially holds every slot index. -/
def init (K V : Type) (C : Nat) : FixedRedBlackTree K V C :=
  { root := RBNode.nil, freeStack := List.range C }

/-- In-order list of the occupied slots (ascending key order). -/
def toList (t : FixedRedBlackTree K V C) : List (Ent K V) :=
  t.root.toList

/-- The key/value pairs held by the tree, in ascending key order. -/
def entries (t : FixedRedBlackTree K V C) : List (K × V) :=
  t.toList.map fun e => (e.key, e.val)

/-- Number of occupied slots.  Models `FixedRedBlackTree::size()`. -/
def size (t : FixedRedBlackTree K V C) : Nat :=
  t.root.size

/-- Models `FixedRedBlackTree::empty()`. -/
def empty (t : FixedRedBlackTree K V C) : Bool :=
  t.size == 0

/-- Models `FixedRedBlackTree::full()`. -/
def full (t : FixedRedBlackTree K V C) : Bool :=
  t.size == C

/-- Locate the slot holding key `k` (spec §4.2 `locate(key) → index | null`,
the tree-engine descent behind `index_of_node_or_null`). -/
def find? (t : FixedRedBlackTree K V C) (k : K) : Option (Ent K V) :=
  t.root.find? (keyCut k)

/-- Models `FixedRedBlackTree::index_of_node_or_null(key)`: the index of the
slot holding `key`, or `NULL_INDEX` when the key is absent. -/
def index_of_node_or_null (t : FixedRedBlackTree K V C) (k : K) : NodeIndex :=
  match t.find? k with
  | some e => e.idx
  | none => NULL_INDEX

/-- Models `FixedRedBlackTree::contains_at(i)`: whether `i` is an occupied
slot index (spec §4.1: `occupied(index)` is a pure query; occupied slots are
exactly the slots reachable in the tree). -/
def contains_at (t : FixedRedBlackTree K V C) (i : NodeIndex) : Bool :=
  t.toList.any fun e => e.idx == i

/-- Models `FixedRedBlackTree::contains_node(key)`. -/
def contains_node (t : FixedRedBlackTree K V C) (k : K) : Bool :=
  (t.find? k).isSome

/-- The occupied slot at index `i`, if any (lookup half of `node_at(i)`). -/
def entry_at (t : FixedRedBlackTree K V C) (i : NodeIndex) : Option (Ent K V) :=
  t.toList.find? fun e => e.idx == i

/-- Models `node_at(i).value()` reads. -/
def value_at (t : FixedRedBlackTree K V C) (i : NodeIndex) : Option V :=
  (t.entry_at i).map Ent.val

/-- Models `node_at(i).key()` reads. -/
def key_at (t : FixedRedBlackTree K V C) (i : NodeIndex) : Option K :=
  (t.entry_at i).map Ent.key

/-- Models `FixedRedBlackTree::index_of_node_with_parent(key)` (spec §4.2
`locate_with_parent`): `i` is the index of the existing node when the key is
present, otherwise the arena slot the insertion would allocate ("Insertion
allocates a slot from the arena at the index found during descent", spec §3);
with an exhausted pool there is no such slot and the null sentinel stands in
(that branch is the capacity-exceeded error path). -/
def index_of_node_with_parent (t : FixedRedBlackTree K V C) (k : K) :
    NodeIndexAndParentIndex :=
  match t.find? k with
  | some e => { i := e.idx }
  | none => { i := t.freeStack.headD NULL_INDEX }

/-- Models `FixedRedBlackTree::insert_new_at(np, k, v)` (spec §4.2
`insert_new`): allocate a slot (capacity exceeded — a process-aborting
precondition violation, spec §4.1/§7 — is modelled as `none`), link the new
node where the descent said, color it red, and restore the red-black
invariants bottom-up, "terminating by coloring the root black". -/
def insert_new_at (t : FixedRedBlackTree K V C) (np : NodeIndexAndParentIndex)
    (k : K) (v : V) : Option (FixedRedBlackTree K V C) :=
  match t.freeStack with
  | [] => none
  | _ :: rest =>
    some { root := (t.root.insert entCmp { key := k, val := v, idx := np.i }).setBlack,
           freeStack := rest }

/-- Models the in-place `node_at(i).value() = obj` write of `insert_or_assign`:
the value stored in slot `i` is replaced, nothing else changes. -/
def set_value_at_root (i : NodeIndex) (v : V) : RBNode (Ent K V) → RBNode (Ent K V)
  | .nil => .nil
  | .node c l e r =>
    .node c (set_value_at_root i v l)
      (if e.idx = i then { key := e.key, val := v, idx := e.idx } else e)
      (set_value_at_root i v r)

/-- Tree-level wrapper of `set_value_at_root`. -/
def set_value_at (t : FixedRedBlackTree K V C) (i : NodeIndex) (v : V) :
    FixedRedBlackTree K V C :=
  { root := set_value_at_root i v t.root, freeStack := t.freeStack }

/-- Models `FixedRedBlackTree::delete_node(key)` (spec §4.2 `delete_node` and
§8: "`erase` on an absent key returns 0 and leaves the container unchanged"):
an absent key deletes nothing and returns count 0; a present key is spliced
out with the standard red-black deletion fix-up, its slot is released back to
the arena, and the count is 1. -/
def delete_node (t : FixedRedBlackTree K V C) (k : K) :
    FixedRedBlackTree K V C × Nat :=
  match t.find? k with
  | none => (t, 0)
  | some e =>
    ({ root := t.root.erase (keyCut k), freeStack := e.idx :: t.freeStack }, 1)

/-- Models `FixedRedBlackTree::index_of_min_at()`: index of the leftmost
(minimum-key) occupied slot, or `NULL_INDEX` on an empty tree. -/
def index_of_min_at (t : FixedRedBlackTree K V C) : NodeIndex :=
  match t.root.min? with
  | some e => e.idx
  | none => NULL_INDEX

/-- Models `FixedRedBlackTree::index_of_max_at()`. -/
def index_of_max_at (t : FixedRedBlackTree K V C) : NodeIndex :=
  match t.root.max? with
  | some e => e.idx
  | none => NULL_INDEX

/-- Models `FixedRedBlackTree::index_of_successor_at(i)` (spec §4.2
`successor(index)`): the slot of the in-order successor of the node at slot
`i` — the occupied slot with the smallest key greater than the key at `i` —
or `NULL_INDEX` when none exists.  (The C++ walks child/parent links; the
observable result is the in-order successor's slot.) -/
def index_of_successor_at (t : FixedRedBlackTree K V C) (i : NodeIndex) :
    NodeIndex :=
  (((t.key_at i).bind fun k =>
    (t.toList.find? fun e => decide (k < e.key)).map Ent.idx).getD NULL_INDEX)

/-- Models `FixedRedBlackTree::index_of_predecessor_at(i)` (spec §4.2
`predecessor(index)`): the slot of the in-order predecessor of the node at
slot `i`, or `NULL_INDEX` when none exists. -/
def index_of_predecessor_at (t : FixedRedBlackTree K V C) (i : NodeIndex) :
    NodeIndex :=
  (((t.key_at i).bind fun k =>
    (t.toList.reverse.find? fun e => decide (e.key < k)).map Ent.idx).getD NULL_INDEX)

/-- Models `FixedRedBlackTree::delete_at_and_return_successor(i)` (spec §4.2
`delete_at(index) → successor_index`): delete the node at slot `i` and return
"the index that should replace an iterator previously pointing at the deleted
entry", i.e. the slot now holding the deleted key's in-order successor
(`NULL_INDEX` when the deleted key was the maximum). -/
def delete_at_and_return_successor (t : FixedRedBlackTree K V C)
    (i : NodeIndex) : FixedRedBlackTree K V C × NodeIndex :=
  match t.key_at i with
  | none => (t, NULL_INDEX)
  | some k => ((t.delete_node k).1, t.index_of_successor_at i)

/-- Models `FixedRedBlackTree::clear()` (spec §6: "empties container,
releases all slots"). -/
def clear (_t : FixedRedBlackTree K V C) : FixedRedBlackTree K V C :=
  init K V C

/-- The slot indices currently occupied, in key order. -/
def usedIdx (t : FixedRedBlackTree K V C) : List NodeIndex :=
  t.toList.map Ent.idx

/-- Well-formedness of a tree state: the red-black structural invariants of
the functional tree (order and balance, with a black root as established by
every mutation's final recoloring) together with the arena bookkeeping
invariants (occupied slots and free-pool entries are valid, mutually disjoint
slot indices that jointly exhaust the capacity). -/
structure WFT (t : FixedRedBlackTree K V C) : Prop where
  ordered : t.root.Ordered entCmp
  balanced : ∃ n, t.root.Balanced RBColor.black n
  used_lt : ∀ i ∈ t.usedIdx, i < C
  used_nodup : t.usedIdx.Nodup
  free_lt : ∀ i ∈ t.freeStack, i < C
  free_nodup : t.freeStack.Nodup
  used_free_disjoint : ∀ i ∈ t.usedIdx, i ∉ t.freeStack
  used_free_count : t.size + t.freeStack.length = C

end FixedRedBlackTree

/-- Call-site descriptor.  Models `std::experimental::source_location`, an
opaque token as far as the map code is concerned (it is only forwarded to the
checking policy). -/
abbrev SourceLocation : Type := Nat

/-- The possible observable outcomes of the process after the default checking
policy runs: it terminates the process, optionally after emitting a diagnostic
message. -/
structure AbortOutcome where
  diagnostics : Option String
deriving DecidableEq

/-- Translated from `fixed_map_customize::AbortChecking::out_of_range` in
`src/include/fixed_containers/fixed_map.hpp`: the default policy discards all
three arguments (they are commented-out, unused parameters) and calls
`std::abort()`, which emits no diagnostic output. -/
def AbortChecking.out_of_range {K : Type} (_key : K) (_size : Nat)
    (_loc : SourceLocation) : AbortOutcome :=
  { diagnostics := none }

/-- Record of one invocation of the out-of-range checking policy: the
arguments `CheckingType::out_of_range(key, size(), loc)` receives. -/
structure OutOfRangeCall (K : Type) where
  key : K
  size : Nat
  loc : SourceLocation
deriving DecidableEq

/-- Translated from `fixed_containers::FixedMap` in
`src/include/fixed_containers/fixed_map.hpp`: the map owns exactly one tree
(`Tree tree_;`). -/
structure FixedMap (K V : Type) [LinearOrder K] (CAPACITY : Nat) where
  tree_ : FixedRedBlackTree K V CAPACITY
deriving DecidableEq

namespace FixedMap

variable {K V : Type} [LinearOrder K] {C : Nat}

/-- Models the default constructor `FixedMap()` (empty map). -/
def init (K V : Type) [LinearOrder K] (C : Nat) : FixedMap K V C :=
  { tree_ := FixedRedBlackTree.init K V C }

/-- Translated from `FixedMap::max_size()`. -/
def max_size (_m : FixedMap K V C) : Nat := C

/-- Translated from `FixedMap::size()`. -/
def size (m : FixedMap K V C) : Nat := m.tree_.size

/-- Translated from `FixedMap::empty()`. -/
def empty (m : FixedMap K V C) : Bool := m.tree_.empty

/-- Translated from `FixedMap::full()`. -/
def full (m : FixedMap K V C) : Bool := m.tree_.full

/-- Translated from `FixedMap::clear()`. -/
def clear (m : FixedMap K V C) : FixedMap K V C := { tree_ := m.tree_.clear }

/-- The key/value pairs held by the map, in ascending key order. -/
def entries (m : FixedMap K V C) : List (K × V) := m.tree_.entries

/-- Translated from
`FixedMap::replace_null_index_with_capacity_for_end_iterator`: "The tree
returns NULL_INDEX when an index is not available.  For the purposes of
iterators, use NULL_INDEX for rend() and CAPACITY for end()". -/
def replace_null_index_with_capacity_for_end_iterator (C : Nat)
    (i : NodeIndex) : NodeIndex :=
  if i = NULL_INDEX then C else i

/-- Translated from `FixedMap::create_iterator(start_index)`: a forward
iterator is modelled by its provider index, with the null index replaced by
the `CAPACITY` end sentinel. -/
def create_iterator (m : FixedMap K V C) (start_index : NodeIndex) : NodeIndex :=
  have _ := m
  replace_null_index_with_capacity_for_end_iterator C start_index

/-- Translated from `FixedMap::cbegin()` / `begin()`. -/
def cbegin (m : FixedMap K V C) : NodeIndex :=
  m.create_iterator m.tree_.index_of_min_at

/-- Translated from `FixedMap::cend()` / `end()`. -/
def cend (m : FixedMap K V C) : NodeIndex :=
  m.create_iterator C

/-- Translated from `PairProvider::advance()` in `fixed_map.hpp`. -/
def advance (m : FixedMap K V C) (i : NodeIndex) : NodeIndex :=
  if i = NULL_INDEX then m.tree_.index_of_min_at
  else
    replace_null_index_with_capacity_for_end_iterator C
      (m.tree_.index_of_successor_at i)

/-- Translated from `PairProvider::recede()` in `fixed_map.hpp`. -/
def recede (m : FixedMap K V C) (i : NodeIndex) : NodeIndex :=
  if i = C then m.tree_.index_of_max_at
  else m.tree_.index_of_predecessor_at i

/-- Models `FixedMap::rbegin()`.  Modelled from the spec for the missing
`bidirectional_iterator.hpp`: a reverse iterator wraps the provider and steps
once on construction (so `rbegin()`, built at the `CAPACITY` sentinel, sits on
the maximum element, and dereference/`==` use the receded index). -/
def rbegin (m : FixedMap K V C) : NodeIndex :=
  m.recede (m.create_iterator C)

/-- Models `FixedMap::rend()` (see `rbegin` for the reverse-iterator model):
built at `index_of_min_at()` and receded once, it sits on the null sentinel. -/
def rend (m : FixedMap K V C) : NodeIndex :=
  m.recede m.tree_.index_of_min_at

/-- Forward traversal: the sequence of entries a forward iterator dereferences
starting at provider index `i`, stepping with `advance` until the `CAPACITY`
end sentinel; `fuel` bounds the loop (any value above `size()` is exact). -/
def fwdFrom (m : FixedMap K V C) : Nat → NodeIndex → List (K × V)
  | 0, _ => []
  | fuel + 1, i =>
    if i = C then []
    else
      ((m.tree_.entry_at i).map fun e =>
        (e.key, e.val) :: m.fwdFrom fuel (m.advance i)).getD []

/-- The full forward range `[begin(), end())`. -/
def fwdList (m : FixedMap K V C) : List (K × V) :=
  m.fwdFrom (m.size + 1) m.cbegin

/-- Reverse traversal: the sequence of entries a reverse iterator dereferences
starting at (already-receded) provider index `i`, stepping with `recede` until
the null rend sentinel. -/
def revFrom (m : FixedMap K V C) : Nat → NodeIndex → List (K × V)
  | 0, _ => []
  | fuel + 1, i =>
    if i = NULL_INDEX then []
    else
      ((m.tree_.entry_at i).map fun e =>
        (e.key, e.val) :: m.revFrom fuel (m.recede i)).getD []

/-- The full reverse range `[rbegin(), rend())`. -/
def revList (m : FixedMap K V C) : List (K × V) :=
  m.revFrom (m.size + 1) m.rbegin

/-- Translated from `FixedMap::at(key, loc)`: look the key up, route a failed
lookup through the checking policy (`error` records the one policy invocation
and the arguments passed), otherwise return the stored value. -/
def at' [Inhabited V] (m : FixedMap K V C) (k : K) (loc : SourceLocation) :
    Except (OutOfRangeCall K) V :=
  let i := m.tree_.index_of_node_or_null k
  if m.tree_.contains_at i then .ok ((m.tree_.value_at i).getD default)
  else .error { key := k, size := m.size, loc := loc }

/-- Translated from `FixedMap::insert(const value_type&)`.  The result is the
post-state, the returned iterator and the returned `wasInserted` flag; `none`
models the aborting capacity-exceeded path (spec §7). -/
def insert (m : FixedMap K V C) (value : K × V) :
    Option (FixedMap K V C × NodeIndex × Bool) :=
  let np := m.tree_.index_of_node_with_parent value.1
  if m.tree_.contains_at np.i then
    some (m, m.create_iterator np.i, false)
  else
    (m.tree_.insert_new_at np value.1 value.2).map fun tr =>
      ({ tree_ := tr }, m.create_iterator np.i, true)

/-- Translated from the range/initializer-list `FixedMap::insert` overloads:
repeated single insertion. -/
def insertList (m : FixedMap K V C) : List (K × V) → Option (FixedMap K V C)
  | [] => some m
  | p :: rest => (m.insert p).bind fun r => insertList r.1 rest

/-- Translated from `FixedMap::insert_or_assign(key, obj)`: assign in place
when the key is present, insert otherwise. -/
def insert_or_assign (m : FixedMap K V C) (k : K) (v : V) :
    Option (FixedMap K V C × NodeIndex × Bool) :=
  let np := m.tree_.index_of_node_with_parent k
  if m.tree_.contains_at np.i then
    some ({ tree_ := m.tree_.set_value_at np.i v }, m.create_iterator np.i, false)
  else
    (m.tree_.insert_new_at np k v).map fun tr =>
      ({ tree_ := tr }, m.create_iterator np.i, true)

/-- Translated from `FixedMap::try_emplace(key, args...)` (the mapped value
constructed from the forwarded arguments is `v`). -/
def try_emplace (m : FixedMap K V C) (k : K) (v : V) :
    Option (FixedMap K V C × NodeIndex × Bool) :=
  let np := m.tree_.index_of_node_with_parent k
  if m.tree_.contains_at np.i then
    some (m, m.create_iterator np.i, false)
  else
    (m.tree_.insert_new_at np k v).map fun tr =>
      ({ tree_ := tr }, m.create_iterator np.i, true)

/-- Translated from `FixedMap::emplace(args...)`: builds the pair and
delegates to `try_emplace`. -/
def emplace (m : FixedMap K V C) (p : K × V) :
    Option (FixedMap K V C × NodeIndex × Bool) :=
  m.try_emplace p.1 p.2

/-- Translated from `FixedMap::erase(const K&)`: `tree_.delete_node(key)`,
returning the post-state and the number of entries removed. -/
def erase (m : FixedMap K V C) (k : K) : FixedMap K V C × Nat :=
  let r := m.tree_.delete_node k
  ({ tree_ := r.1 }, r.2)

/-- Translated from `FixedMap::erase(iterator pos)`: re-resolve the key the
iterator points at, delete that node, and return an iterator at its
successor. -/
def erase_pos (m : FixedMap K V C) (pos : NodeIndex) :
    FixedMap K V C × NodeIndex :=
  match m.tree_.key_at pos with
  | none => (m, m.create_iterator pos)
  | some k =>
    let i := m.tree_.index_of_node_or_null k
    let r := m.tree_.delete_at_and_return_successor i
    ({ tree_ := r.1 }, m.create_iterator r.2)

/-- Translated from `FixedMap::find(key)`: an iterator at the key's node, or
`end()`. -/
def find (m : FixedMap K V C) (k : K) : NodeIndex :=
  let i := m.tree_.index_of_node_or_null k
  if ¬ m.tree_.contains_at i then m.cend
  else m.create_iterator i

/-- Translated from `FixedMap::contains(key)`. -/
def contains (m : FixedMap K V C) (k : K) : Bool :=
  m.tree_.contains_node k

/-- Translated from `FixedMap::count(key)`. -/
def count (m : FixedMap K V C) (k : K) : Nat :=
  (m.contains k).toNat

/-- Translated from `FixedMap::operator==(const FixedMap<K, V, C2>&)`: the
identity short-circuit (compiled only when the capacities coincide; two maps
at one address are one object, modelled as equal values), then the size check,
then `std::equal` over the forward ranges (elementwise key/value equality of
the entries the iterators produce). -/
def beq [DecidableEq V] {C2 : Nat} (m : FixedMap K V C) (other : FixedMap K V C2) :
    Bool :=
  (if h : C = C2 then (h ▸ m) = other else False) ||
    (m.size == other.size && m.fwdList == other.fwdList)

/-- The order-independent equality condition of the spec: "same count and, for
every entry in one, an entry with equal key and equal value exists in the
other". -/
def sameEntries {C2 : Nat} (m : FixedMap K V C) (other : FixedMap K V C2) : Prop :=
  m.size = other.size ∧
    (∀ p ∈ m.entries, p ∈ other.entries) ∧
    (∀ p ∈ other.entries, p ∈ m.entries)

/-- Overall well-formedness of a map state. -/
def WF (m : FixedMap K V C) : Prop :=
  m.tree_.WFT

end FixedMap

/-- Modelled from the spec (§4.3 Builder): "accumulates repeated insert calls
(single pair, iterator range, or list) and produces an immutable snapshot on
finalize; for a duplicate key, the first inserted value wins — later calls are
no-ops" (`enum_map.hpp`, which declares the builder exercised by
`src/test/enum_map_test.cpp`, is not under `src/`).  The builder owns a map
under construction; each insert delegates to the container's first-wins
insert. -/
structure Builder (K V : Type) [LinearOrder K] (CAPACITY : Nat) where
  m : FixedMap K V CAPACITY

namespace Builder

variable {K V : Type} [LinearOrder K] {C : Nat}

/-- A fresh builder (`Builder{}`). -/
def init (K V : Type) [LinearOrder K] (C : Nat) : Builder K V C :=
  { m := FixedMap.init K V C }

/-- Models `Builder::insert(pair)`; the capacity-exceeded abort is `none`. -/
def insert (b : Builder K V C) (p : K × V) : Option (Builder K V C) :=
  (b.m.insert p).map fun r => { m := r.1 }

/-- Models the list overload `Builder::insert({...})`. -/
def insertList (b : Builder K V C) (l : List (K × V)) : Option (Builder K V C) :=
  (b.m.insertList l).map fun m2 => { m := m2 }

/-- Models `Builder::build()`: the finalized snapshot. -/
def build (b : Builder K V C) : FixedMap K V C :=
  b.m

end Builder

namespace RBInv

variable {K V : Type} [LinearOrder K]

/-- Spec invariant (a): "binary-search-tree order consistent with the
comparator over all reachable occupied nodes" — at every reachable node, all
keys in the left subtree compare below the node's key and all keys in the
right subtree above it. -/
def BSTOrdered : RBNode (Ent K V) → Prop
  | .nil => True
  | .node _ l e r =>
    (∀ x ∈ l, x.key < e.key) ∧ (∀ x ∈ r, e.key < x.key) ∧
      BSTOrdered l ∧ BSTOrdered r

/-- Spec invariant (b): "root is black" (vacuous for the empty tree, whose
root index is the null sentinel). -/
def RootIsBlack : RBNode (Ent K V) → Prop
  | .nil => True
  | .node c _ _ _ => c = RBColor.black

/-- Helper for invariant (c): the node is not red (null nodes count as
black). -/
def NotRedRoot : RBNode (Ent K V) → Prop
  | .nil => True
  | .node c _ _ _ => c ≠ RBColor.red

/-- Spec invariant (c): "no red node has a red child". -/
def NoRedRed : RBNode (Ent K V) → Prop
  | .nil => True
  | .node c l _ r =>
    (c = RBColor.red → NotRedRoot l ∧ NotRedRoot r) ∧ NoRedRed l ∧ NoRedRed r

/-- The black-node count of every root-to-null path of the tree (one list
entry per null leaf position). -/
def pathBlackCounts : RBNode (Ent K V) → List Nat
  | .nil => [0]
  | .node c l _ r =>
    (pathBlackCounts l ++ pathBlackCounts r).map fun n =>
      n + (if c = RBColor.black then 1 else 0)

/-- Spec invariant (d): "every root-to-null path has equal black-node
count". -/
def EqualBlackCounts (t : RBNode (Ent K V)) : Prop :=
  ∃ n, ∀ c ∈ pathBlackCounts t, c = n

/-- All four red-black invariants of spec §3, as one predicate on the
reachable tree. -/
def RBInvariants (t : RBNode (Ent K V)) : Prop :=
  BSTOrdered t ∧ RootIsBlack t ∧ NoRedRed t ∧ EqualBlackCounts t

end RBInv

/-- Concrete sample instance: an empty capacity-4 map over `Nat` keys and
values, used to exercise the theorems on explicit inputs. -/
def sampleEmpty : FixedMap Nat Nat 4 :=
  FixedMap.init Nat Nat 4

/-- Concrete sample instance: the capacity-4 map holding the single entry
`(2, 20)`. -/
def sampleOne : FixedMap Nat Nat 4 :=
  ((sampleEmpty.insert (2, 20)).map Prod.fst).getD sampleEmpty

/-- Concrete sample instance: a capacity-5 map holding the same single entry
`(2, 20)` (for cross-capacity equality). -/
def sampleOneBig : FixedMap Nat Nat 5 :=
  (((FixedMap.init Nat Nat 5).insert (2, 20)).map Prod.fst).getD
    (FixedMap.init Nat Nat 5)

section Bridges

variable {K V : Type} [LinearOrder K]

theorem cmpLT_entCmp_iff {a b : Ent K V} :
    Batteries.RBNode.cmpLT entCmp a b ↔ a.key < b.key := by
  rw [Batteries.RBNode.cmpLT_iff]
  exact compare_lt_iff_lt

theorem keyCut_eq_iff {k : K} {e : Ent K V} : keyCut k e = .eq ↔ k = e.key := by
  unfold keyCut
  exact compare_eq_iff_eq

theorem keyCut_lt_iff {k : K} {e : Ent K V} : keyCut k e = .lt ↔ k < e.key := by
  unfold keyCut
  exact compare_lt_iff_lt

theorem keyCut_gt_iff {k : K} {e : Ent K V} : keyCut k e = .gt ↔ e.key < k := by
  unfold keyCut
  exact compare_gt_iff_gt

theorem toList_sorted_keys {t : Batteries.RBNode (Ent K V)}
    (ht : t.Ordered entCmp) : t.toList.Pairwise fun a b => a.key < b.key :=
  (Batteries.RBNode.ordered_iff.1 ht).imp cmpLT_entCmp_iff.1

theorem find?_some_iff {t : Batteries.RBNode (Ent K V)} {k : K} {e : Ent K V}
    (ht : t.Ordered entCmp) :
    t.find? (keyCut k) = some e ↔ e ∈ t.toList ∧ e.key = k := by
  rw [ht.find?_some, Batteries.RBNode.mem_toList, keyCut_eq_iff, eq_comm]

theorem find?_none_iff {t : Batteries.RBNode (Ent K V)} {k : K}
    (ht : t.Ordered entCmp) :
    t.find? (keyCut k) = none ↔ ∀ e ∈ t.toList, e.key ≠ k := by
  constructor
  · intro h e he hk
    obtain ⟨x, hx⟩ := ht.memP_iff_find?.1
      (Batteries.RBNode.memP_def.2
        ⟨e, Batteries.RBNode.mem_toList.1 he, keyCut_eq_iff.2 hk.symm⟩)
    rw [h] at hx
    cases hx
  · intro h
    cases hf : t.find? (keyCut k) with
    | none => rfl
    | some e =>
      obtain ⟨he, hk⟩ := (find?_some_iff ht).1 hf
      exact absurd hk (h e he)

theorem append_toList {α : Type} : ∀ l r : Batteries.RBNode α,
    (l.append r).toList = l.toList ++ r.toList
  | .nil, x => by cases x <;> simp [Batteries.RBNode.append]
  | .node c l v r, .nil => by simp [Batteries.RBNode.append]
  | .node .red a x b, .node .red c y d => by
    have ih := append_toList b c
    simp only [Batteries.RBNode.append]
    split
    · next b2 z c2 h =>
      rw [h] at ih
      simp at ih
      have h2 : (b2.toList ++ z :: c2.toList) ++ (y :: d.toList)
          = (b.toList ++ c.toList) ++ (y :: d.toList) := by rw [ih]
      simp at h2
      simp [h2]
    · simp [ih]
  | .node .black a x b, .node .black c y d => by
    have ih := append_toList b c
    simp only [Batteries.RBNode.append]
    split
    · next b2 z c2 h =>
      rw [h] at ih
      simp at ih
      have h2 : (b2.toList ++ z :: c2.toList) ++ (y :: d.toList)
          = (b.toList ++ c.toList) ++ (y :: d.toList) := by rw [ih]
      simp at h2
      simp [h2]
    · simp [ih]
  | .node .black a x b, .node .red c y d => by
    have ih := append_toList (.node .black a x b) c
    simp [Batteries.RBNode.append, ih]
  | .node .red a x b, .node .black c y d => by
    have ih := append_toList b (.node .black c y d)
    simp [Batteries.RBNode.append, ih]
termination_by l r => l.size + r.size

theorem del_toList {α : Type} (cut : α → Ordering) (t : Batteries.RBNode α)
    (e : α) (h : t.find? cut = some e) :
    ∃ L R, t.toList = L ++ e :: R ∧ (t.del cut).toList = L ++ R := by
  induction t with
  | nil => cases h
  | node c a y b iha ihb =>
    rw [Batteries.RBNode.find?] at h
    unfold Batteries.RBNode.del
    cases hc : cut y with
    | lt =>
      rw [hc] at h
      obtain ⟨L, R, h1, h2⟩ := iha h
      refine ⟨L, R ++ y :: b.toList, by simp [h1], ?_⟩
      cases a.isBlack <;> simp [h2]
    | gt =>
      rw [hc] at h
      obtain ⟨L, R, h1, h2⟩ := ihb h
      refine ⟨a.toList ++ y :: L, R, by simp [h1], ?_⟩
      cases b.isBlack <;> simp [h2]
    | eq =>
      rw [hc] at h
      cases h
      exact ⟨a.toList, b.toList, by simp, by simp [append_toList]⟩

theorem erase_toList {α : Type} (cut : α → Ordering) (t : Batteries.RBNode α)
    (e : α) (h : t.find? cut = some e) :
    ∃ L R, t.toList = L ++ e :: R ∧ (t.erase cut).toList = L ++ R := by
  obtain ⟨L, R, h1, h2⟩ := del_toList cut t e h
  exact ⟨L, R, h1, by simpa [Batteries.RBNode.erase] using h2⟩

end Bridges

section Preservation

variable {K V : Type} [LinearOrder K] {C : Nat}

open FixedRedBlackTree

theorem wft_init : (FixedRedBlackTree.init K V C).WFT := by
  refine ⟨trivial, ⟨0, .nil⟩, ?_, ?_, ?_, ?_, ?_, ?_⟩ <;>
    simp [FixedRedBlackTree.init, usedIdx, FixedRedBlackTree.toList,
      FixedRedBlackTree.size, List.nodup_range]

theorem keyCut_eq_entCmp (k : K) (v : V) (i : NodeIndex) :
    keyCut (V := V) k = entCmp { key := k, val := v, idx := i } := rfl

theorem insert_setBlack_toList_absent {t : Batteries.RBNode (Ent K V)}
    {c : RBColor} {n : Nat} (hb : t.Balanced c n) {k : K}
    (hf : t.find? (keyCut k) = none) (v : V) (i : NodeIndex) :
    ∃ L R, t.toList = L ++ R ∧
      ((t.insert entCmp { key := k, val := v, idx := i }).setBlack).toList
        = L ++ ({ key := k, val := v, idx := i } : Ent K V) :: R := by
  rw [keyCut_eq_entCmp k v i] at hf
  rw [Batteries.RBNode.find?_eq_zoom (p := Batteries.RBNode.Path.root)] at hf
  rcases hz : t.zoom (entCmp { key := k, val := v, idx := i })
      Batteries.RBNode.Path.root with ⟨t2, p⟩
  rw [hz] at hf
  cases t2 with
  | node c2 l2 v2 r2 => cases hf
  | nil =>
    obtain ⟨L, R, h1, h2⟩ := Batteries.RBNode.exists_insert_toList_zoom_nil hb hz
    exact ⟨L, R, h1, by simpa using h2⟩

theorem wft_insert_new {t : FixedRedBlackTree K V C} (h : t.WFT) {k : K}
    (hf : t.find? k = none) (v : V) {i : NodeIndex} {rest : List NodeIndex}
    (hfree : t.freeStack = i :: rest) :
    WFT (C := C) ⟨(t.root.insert entCmp { key := k, val := v, idx := i }).setBlack, rest⟩ := by
  obtain ⟨n, hb⟩ := h.balanced
  obtain ⟨L, R, h1, h2⟩ := insert_setBlack_toList_absent hb hf v i
  have hiC : i < C := h.free_lt i (by rw [hfree]; exact List.mem_cons_self i rest)
  have hinotrest : i ∉ rest := by
    have := h.free_nodup
    rw [hfree] at this
    exact (List.nodup_cons.1 this).1
  have hinotused : i ∉ t.usedIdx := fun hmem =>
    h.used_free_disjoint i hmem (by rw [hfree]; exact List.mem_cons_self i rest)
  have husedold : t.usedIdx = L.map Ent.idx ++ R.map Ent.idx := by
    rw [usedIdx, FixedRedBlackTree.toList, h1, List.map_append]
  have husednew : (FixedRedBlackTree.usedIdx (C := C)
      ⟨(t.root.insert entCmp { key := k, val := v, idx := i }).setBlack, rest⟩)
      = L.map Ent.idx ++ i :: R.map Ent.idx := by
    rw [usedIdx, FixedRedBlackTree.toList, h2, List.map_append, List.map_cons]
  refine ⟨?_, ?_, ?_, ?_, ?_, ?_, ?_, ?_⟩
  · exact Batteries.RBNode.Ordered.setBlack.2 h.ordered.insert
  · rw [Batteries.RBNode.insert_setBlack]
    exact (hb.ins entCmp { key := k, val := v, idx := i }).setBlack
  · intro j hj
    rw [husednew] at hj
    rcases List.mem_append.1 hj with hj | hj
    · exact h.used_lt j (by rw [husedold]; exact List.mem_append.2 (.inl hj))
    · rcases List.mem_cons.1 hj with rfl | hj
      · exact hiC
      · exact h.used_lt j (by rw [husedold]; exact List.mem_append.2 (.inr hj))
  · rw [husednew, List.nodup_middle, List.nodup_cons]
    rw [← husedold]
    exact ⟨hinotused, h.used_nodup⟩
  · intro j hj
    exact h.free_lt j (by rw [hfree]; exact List.mem_cons_of_mem i hj)
  · have := h.free_nodup
    rw [hfree] at this
    exact (List.nodup_cons.1 this).2
  · intro j hj hjrest
    rw [husednew] at hj
    have hj2 : j ∈ L.map Ent.idx ++ R.map Ent.idx ∨ j = i := by
      rcases List.mem_append.1 hj with hj | hj
      · exact .inl (List.mem_append.2 (.inl hj))
      · rcases List.mem_cons.1 hj with rfl | hj
        · exact .inr rfl
        · exact .inl (List.mem_append.2 (.inr hj))
    rcases hj2 with hj2 | rfl
    · exact h.used_free_disjoint j (by rw [husedold]; exact hj2)
        (by rw [hfree]; exact List.mem_cons_of_mem i hjrest)
    · exact hinotrest hjrest
  · have hsz : t.size = L.length + R.length := by
      rw [FixedRedBlackTree.size, Batteries.RBNode.size_eq, h1, List.length_append]
    have hsz2 : (FixedRedBlackTree.size (C := C)
        ⟨(t.root.insert entCmp { key := k, val := v, idx := i }).setBlack, rest⟩)
        = L.length + R.length + 1 := by
      simp [FixedRedBlackTree.size, Batteries.RBNode.size_eq, h2]
      omega
    have hfl : t.freeStack.length = rest.length + 1 := by rw [hfree]; rfl
    have := h.used_free_count
    rw [hsz, hfl] at this
    rw [hsz2]
    show _ + rest.length = C
    omega

theorem wft_delete_node {t : FixedRedBlackTree K V C} (h : t.WFT) {k : K}
    {e : Ent K V} (hf : t.find? k = some e) :
    WFT (C := C) ⟨t.root.erase (keyCut k), e.idx :: t.freeStack⟩ := by
  obtain ⟨n, hb⟩ := h.balanced
  obtain ⟨L, R, h1, h2⟩ := erase_toList (keyCut k) t.root e hf
  have husedold : t.usedIdx = L.map Ent.idx ++ e.idx :: R.map Ent.idx := by
    rw [usedIdx, FixedRedBlackTree.toList, h1, List.map_append, List.map_cons]
  have husednew : (FixedRedBlackTree.usedIdx (C := C)
      ⟨t.root.erase (keyCut k), e.idx :: t.freeStack⟩)
      = L.map Ent.idx ++ R.map Ent.idx := by
    rw [usedIdx, FixedRedBlackTree.toList, h2, List.map_append]
  have hmid := h.used_nodup
  rw [husedold, List.nodup_middle, List.nodup_cons] at hmid
  have heidx : e.idx ∈ t.usedIdx := by
    rw [husedold]
    exact List.mem_append.2 (.inr (List.mem_cons_self _ _))
  refine ⟨?_, ?_, ?_, ?_, ?_, ?_, ?_, ?_⟩
  · exact h.ordered.erase
  · exact hb.erase
  · intro j hj
    rw [husednew] at hj
    refine h.used_lt j ?_
    rw [husedold]
    rcases List.mem_append.1 hj with hj | hj
    · exact List.mem_append.2 (.inl hj)
    · exact List.mem_append.2 (.inr (List.mem_cons_of_mem _ hj))
  · rw [husednew]
    exact hmid.2
  · intro j hj
    rcases List.mem_cons.1 hj with rfl | hj
    · exact h.used_lt _ heidx
    · exact h.free_lt j hj
  · rw [List.nodup_cons]
    exact ⟨h.used_free_disjoint e.idx heidx, h.free_nodup⟩
  · intro j hj hjf
    rw [husednew] at hj
    have hj2 : j ∈ t.usedIdx := by
      rw [husedold]
      rcases List.mem_append.1 hj with hj | hj
      · exact List.mem_append.2 (.inl hj)
      · exact List.mem_append.2 (.inr (List.mem_cons_of_mem _ hj))
    rcases List.mem_cons.1 hjf with rfl | hjf
    · exact hmid.1 hj
    · exact h.used_free_disjoint j hj2 hjf
  · have hsz : t.size = L.length + R.length + 1 := by
      rw [FixedRedBlackTree.size, Batteries.RBNode.size_eq, h1]
      simp only [List.length_append, List.length_cons]
      omega
    have hsz2 : (FixedRedBlackTree.size (C := C)
        ⟨t.root.erase (keyCut k), e.idx :: t.freeStack⟩)
        = L.length + R.length := by
      simp [FixedRedBlackTree.size, Batteries.RBNode.size_eq, h2]
    have := h.used_free_count
    rw [hsz] at this
    rw [hsz2]
    show _ + (e.idx :: t.freeStack).length = C
    rw [List.length_cons]
    omega

theorem set_value_at_root_toList (i : NodeIndex) (v : V)
    (t : Batteries.RBNode (Ent K V)) :
    (set_value_at_root i v t).toList = t.toList.map fun e =>
      if e.idx = i then { key := e.key, val := v, idx := e.idx } else e := by
  induction t with
  | nil => rfl
  | node c l e r ihl ihr => simp [set_value_at_root, ihl, ihr]

theorem set_value_at_root_balanced {i : NodeIndex} {v : V}
    {t : Batteries.RBNode (Ent K V)} {c : RBColor} {n : Nat}
    (hb : t.Balanced c n) : (set_value_at_root i v t).Balanced c n := by
  induction hb with
  | nil => exact .nil
  | red hl hr ihl ihr => exact .red ihl ihr
  | black hl hr ihl ihr => exact .black ihl ihr

theorem set_value_at_root_ordered {i : NodeIndex} {v : V}
    {t : Batteries.RBNode (Ent K V)} (ht : t.Ordered entCmp) :
    (set_value_at_root i v t).Ordered entCmp := by
  rw [Batteries.RBNode.ordered_iff] at ht ⊢
  rw [set_value_at_root_toList, List.pairwise_map]
  refine ht.imp fun hab => ?_
  rw [Batteries.RBNode.cmpLT_iff] at hab ⊢
  simpa [entCmp, apply_ite Ent.key] using hab

theorem wft_set_value {t : FixedRedBlackTree K V C} (h : t.WFT)
    (i : NodeIndex) (v : V) : (t.set_value_at i v).WFT := by
  have htl : (t.set_value_at i v).toList = t.toList.map fun e =>
      if e.idx = i then { key := e.key, val := v, idx := e.idx } else e :=
    set_value_at_root_toList i v t.root
  have hused : (t.set_value_at i v).usedIdx = t.usedIdx := by
    rw [usedIdx, htl, List.map_map, usedIdx]
    congr 1
    funext e
    by_cases he : e.idx = i <;> simp [he]
  have hsz : (t.set_value_at i v).size = t.size := by
    simp [FixedRedBlackTree.size, Batteries.RBNode.size_eq, set_value_at,
      set_value_at_root_toList]
  obtain ⟨n, hb⟩ := h.balanced
  refine ⟨set_value_at_root_ordered h.ordered,
    ⟨n, set_value_at_root_balanced hb⟩, ?_, ?_, h.free_lt,
    h.free_nodup, ?_, ?_⟩
  · rw [hused]
    exact h.used_lt
  · rw [hused]
    exact h.used_nodup
  · rw [hused]
    exact h.used_free_disjoint
  · rw [hsz]
    exact h.used_free_count

theorem contains_at_iff {t : FixedRedBlackTree K V C} {i : NodeIndex} :
    t.contains_at i = true ↔ ∃ e ∈ t.toList, e.idx = i := by
  simp [contains_at]

theorem contains_at_of_find?_some {t : FixedRedBlackTree K V C} {k : K}
    {e : Ent K V} (hf : t.find? k = some e) : t.contains_at e.idx = true :=
  contains_at_iff.2 ⟨e, Batteries.RBNode.mem_toList.2
    (Batteries.RBNode.find?_some_mem hf), rfl⟩

theorem contains_at_head_free {t : FixedRedBlackTree K V C} (h : t.WFT)
    {i : NodeIndex} {rest : List NodeIndex} (hfree : t.freeStack = i :: rest) :
    t.contains_at i = false := by
  rw [← Bool.not_eq_true, contains_at_iff]
  rintro ⟨e, he, rfl⟩
  exact h.used_free_disjoint e.idx (List.mem_map.2 ⟨e, he, rfl⟩)
    (by rw [hfree]; exact List.mem_cons_self _ _)

end Preservation

section MapOps

variable {K V : Type} [LinearOrder K] {C : Nat}

open FixedRedBlackTree

theorem find?_idx_unique {l : List (Ent K V)} (hn : (l.map Ent.idx).Nodup)
    {e : Ent K V} (he : e ∈ l) :
    l.find? (fun x => x.idx == e.idx) = some e := by
  induction l with
  | nil => cases he
  | cons a l ih =>
    rcases List.mem_cons.1 he with rfl | he
    · simp
    · have hne : (a.idx == e.idx) = false := by
        simp only [beq_eq_false_iff_ne, ne_eq]
        intro hh
        exact (List.nodup_cons.1 hn).1 (hh ▸ List.mem_map.2 ⟨e, he, rfl⟩)
      simp only [List.find?, hne]
      exact ih (List.nodup_cons.1 hn).2 he

theorem entry_at_of_mem {t : FixedRedBlackTree K V C} (h : t.WFT)
    {e : Ent K V} (he : e ∈ t.toList) : t.entry_at e.idx = some e :=
  find?_idx_unique h.used_nodup he

theorem entry_at_some {t : FixedRedBlackTree K V C} {i : NodeIndex}
    {e : Ent K V} (h : t.entry_at i = some e) : e ∈ t.toList ∧ e.idx = i := by
  refine ⟨List.mem_of_find?_eq_some h, ?_⟩
  have := List.find?_some h
  simpa using this

theorem wf_init : (FixedMap.init K V C).WF :=
  wft_init

theorem contains_at_null_false {t : FixedRedBlackTree K V C} (h : t.WFT)
    (hC : C ≤ NULL_INDEX) : t.contains_at NULL_INDEX = false := by
  rw [← Bool.not_eq_true, contains_at_iff]
  rintro ⟨e, he, hei⟩
  have h1 := h.used_lt e.idx (List.mem_map.2 ⟨e, he, rfl⟩)
  exact absurd hei (Nat.ne_of_lt (lt_of_lt_of_le h1 hC))

theorem insert_inv {m : FixedMap K V C} (h : m.WF) (hC : C ≤ NULL_INDEX) {p : K × V}
    {r : FixedMap K V C × NodeIndex × Bool} (hr : m.insert p = some r) :
    (∃ e, m.tree_.find? p.1 = some e ∧ r = (m, m.create_iterator e.idx, false)) ∨
    (∃ i rest, m.tree_.find? p.1 = none ∧ m.tree_.freeStack = i :: rest ∧
      r = (⟨⟨(m.tree_.root.insert entCmp { key := p.1, val := p.2, idx := i }).setBlack,
            rest⟩⟩, m.create_iterator i, true)) := by
  simp only [FixedMap.insert] at hr
  cases hf : m.tree_.find? p.1 with
  | some e =>
    left
    simp only [FixedRedBlackTree.index_of_node_with_parent, hf,
      contains_at_of_find?_some hf, if_true] at hr
    cases hr
    exact ⟨e, rfl, rfl⟩
  | none =>
    right
    cases hfree : m.tree_.freeStack with
    | nil =>
      simp [FixedRedBlackTree.index_of_node_with_parent, hf,
        FixedRedBlackTree.insert_new_at, hfree,
        contains_at_null_false h hC] at hr
    | cons i rest =>
      simp only [FixedRedBlackTree.index_of_node_with_parent, hf, hfree,
        List.headD_cons, contains_at_head_free h hfree,
        FixedRedBlackTree.insert_new_at, Bool.false_eq_true, if_false,
        Option.map_some] at hr
      cases hr
      exact ⟨i, rest, rfl, rfl, rfl⟩

theorem insert_or_assign_inv {m : FixedMap K V C} (h : m.WF) (hC : C ≤ NULL_INDEX)
    {k : K} {v : V}
    {r : FixedMap K V C × NodeIndex × Bool} (hr : m.insert_or_assign k v = some r) :
    (∃ e, m.tree_.find? k = some e ∧
      r = (⟨m.tree_.set_value_at e.idx v⟩, m.create_iterator e.idx, false)) ∨
    (∃ i rest, m.tree_.find? k = none ∧ m.tree_.freeStack = i :: rest ∧
      r = (⟨⟨(m.tree_.root.insert entCmp { key := k, val := v, idx := i }).setBlack,
            rest⟩⟩, m.create_iterator i, true)) := by
  simp only [FixedMap.insert_or_assign] at hr
  cases hf : m.tree_.find? k with
  | some e =>
    left
    simp only [FixedRedBlackTree.index_of_node_with_parent, hf,
      contains_at_of_find?_some hf, if_true] at hr
    cases hr
    exact ⟨e, rfl, rfl⟩
  | none =>
    right
    cases hfree : m.tree_.freeStack with
    | nil =>
      simp [FixedRedBlackTree.index_of_node_with_parent, hf,
        FixedRedBlackTree.insert_new_at, hfree,
        contains_at_null_false h hC] at hr
    | cons i rest =>
      simp only [FixedRedBlackTree.index_of_node_with_parent, hf, hfree,
        List.headD_cons, contains_at_head_free h hfree,
        FixedRedBlackTree.insert_new_at, Bool.false_eq_true, if_false,
        Option.map_some] at hr
      cases hr
      exact ⟨i, rest, rfl, rfl, rfl⟩

theorem try_emplace_eq_insert (m : FixedMap K V C) (k : K) (v : V) :
    m.try_emplace k v = m.insert (k, v) := rfl

theorem emplace_eq_insert (m : FixedMap K V C) (p : K × V) :
    m.emplace p = m.insert p := rfl

theorem wf_insert {m : FixedMap K V C} (h : m.WF) (hC : C ≤ NULL_INDEX) {p : K × V}
    {r : FixedMap K V C × NodeIndex × Bool} (hr : m.insert p = some r) :
    r.1.WF := by
  rcases insert_inv h hC hr with ⟨e, _, rfl⟩ | ⟨i, rest, hf, hfree, rfl⟩
  · exact h
  · exact wft_insert_new h hf p.2 hfree

theorem wf_insert_or_assign {m : FixedMap K V C} (h : m.WF) (hC : C ≤ NULL_INDEX)
    {k : K} {v : V}
    {r : FixedMap K V C × NodeIndex × Bool} (hr : m.insert_or_assign k v = some r) :
    r.1.WF := by
  rcases insert_or_assign_inv h hC hr with ⟨e, _, rfl⟩ | ⟨i, rest, hf, hfree, rfl⟩
  · exact wft_set_value h e.idx v
  · exact wft_insert_new h hf v hfree

theorem erase_eq_absent {m : FixedMap K V C} {k : K}
    (hf : m.tree_.find? k = none) : m.erase k = (m, 0) := by
  simp [FixedMap.erase, FixedRedBlackTree.delete_node, hf]

theorem erase_eq_present {m : FixedMap K V C} {k : K} {e : Ent K V}
    (hf : m.tree_.find? k = some e) :
    m.erase k = (⟨⟨m.tree_.root.erase (keyCut k), e.idx :: m.tree_.freeStack⟩⟩, 1) := by
  simp [FixedMap.erase, FixedRedBlackTree.delete_node, hf]

theorem wf_erase {m : FixedMap K V C} (h : m.WF) (k : K) : (m.erase k).1.WF := by
  cases hf : m.tree_.find? k with
  | none => rw [erase_eq_absent hf]; exact h
  | some e => rw [erase_eq_present hf]; exact wft_delete_node h hf

theorem wf_clear (m : FixedMap K V C) : m.clear.WF :=
  wft_init

theorem wf_delete_at {t : FixedRedBlackTree K V C} (h : t.WFT) (i : NodeIndex) :
    (t.delete_at_and_return_successor i).1.WFT := by
  cases hk : t.key_at i with
  | none => simpa [FixedRedBlackTree.delete_at_and_return_successor, hk] using h
  | some k =>
    have h1 : (t.delete_at_and_return_successor i).1 = (t.delete_node k).1 := by
      simp [FixedRedBlackTree.delete_at_and_return_successor, hk]
    rw [h1]
    cases hf : t.find? k with
    | none => simpa [FixedRedBlackTree.delete_node, hf] using h
    | some e =>
      have h2 : (t.delete_node k).1
          = ⟨t.root.erase (keyCut k), e.idx :: t.freeStack⟩ := by
        simp [FixedRedBlackTree.delete_node, hf]
      rw [h2]
      exact wft_delete_node h hf

theorem wf_erase_pos {m : FixedMap K V C} (h : m.WF) (pos : NodeIndex) :
    (m.erase_pos pos).1.WF := by
  unfold FixedMap.erase_pos
  cases hk : m.tree_.key_at pos with
  | none => exact h
  | some k => exact wf_delete_at h _

theorem wf_insertList {m : FixedMap K V C} (h : m.WF) (hC : C ≤ NULL_INDEX)
    {l : List (K × V)}
    {m2 : FixedMap K V C} (hr : m.insertList l = some m2) : m2.WF := by
  induction l generalizing m with
  | nil => cases hr; exact h
  | cons p rest ih =>
    simp only [FixedMap.insertList, Option.bind_eq_some] at hr
    obtain ⟨r, hr1, hr2⟩ := hr
    exact ih (wf_insert h hC hr1) hr2

end MapOps

section RBBridges

variable {K V : Type} [LinearOrder K] {C : Nat}

theorem bst_ordered_of_ordered {t : Batteries.RBNode (Ent K V)}
    (h : t.Ordered entCmp) : RBInv.BSTOrdered t := by
  induction t with
  | nil => trivial
  | node c l e r ihl ihr =>
    obtain ⟨hle, her, hl, hr⟩ := h
    exact ⟨fun x hx => cmpLT_entCmp_iff.1 (Batteries.RBNode.All_def.1 hle x hx),
      fun x hx => cmpLT_entCmp_iff.1 (Batteries.RBNode.All_def.1 her x hx),
      ihl hl, ihr hr⟩

theorem notRedRoot_of_balanced_black {t : Batteries.RBNode (Ent K V)} {n : Nat}
    (h : t.Balanced RBColor.black n) : RBInv.NotRedRoot t := by
  cases h with
  | nil => trivial
  | black _ _ => exact fun hh => (nomatch hh)

theorem noRedRed_of_balanced {t : Batteries.RBNode (Ent K V)} {c : RBColor}
    {n : Nat} (h : t.Balanced c n) : RBInv.NoRedRed t := by
  induction h with
  | nil => trivial
  | red hl hr ihl ihr =>
    exact ⟨fun _ => ⟨notRedRoot_of_balanced_black hl,
      notRedRoot_of_balanced_black hr⟩, ihl, ihr⟩
  | black hl hr ihl ihr =>
    exact ⟨fun hh => (nomatch hh), ihl, ihr⟩

theorem rootIsBlack_of_balanced_black {t : Batteries.RBNode (Ent K V)} {n : Nat}
    (h : t.Balanced RBColor.black n) : RBInv.RootIsBlack t := by
  cases h with
  | nil => trivial
  | black _ _ => rfl

theorem counts_of_balanced {t : Batteries.RBNode (Ent K V)} {c : RBColor}
    {n : Nat} (h : t.Balanced c n) :
    ∀ m ∈ RBInv.pathBlackCounts t, m = n := by
  induction h with
  | nil => intro m hm; simpa [RBInv.pathBlackCounts] using hm
  | red hl hr ihl ihr =>
    intro m hm
    simp only [RBInv.pathBlackCounts, List.mem_map, List.mem_append] at hm
    obtain ⟨m0, hm0, rfl⟩ := hm
    rcases hm0 with hm0 | hm0
    · simp [ihl m0 hm0]
    · simp [ihr m0 hm0]
  | black hl hr ihl ihr =>
    intro m hm
    simp only [RBInv.pathBlackCounts, List.mem_map, List.mem_append] at hm
    obtain ⟨m0, hm0, rfl⟩ := hm
    rcases hm0 with hm0 | hm0
    · simp [ihl m0 hm0]
    · simp [ihr m0 hm0]

theorem rb_invariants_of_wft {t : FixedRedBlackTree K V C} (h : t.WFT) :
    RBInv.RBInvariants t.root := by
  obtain ⟨n, hb⟩ := h.balanced
  exact ⟨bst_ordered_of_ordered h.ordered, rootIsBlack_of_balanced_black hb,
    noRedRed_of_balanced hb, ⟨n, counts_of_balanced hb⟩⟩

end RBBridges

section Iteration

variable {K V : Type} [LinearOrder K] {C : Nat}

open FixedRedBlackTree

theorem find?_prefix_false {α : Type} {p : α → Bool} {M1 M2 : List α}
    (h1 : ∀ x ∈ M1, ¬ p x = true) : (M1 ++ M2).find? p = M2.find? p := by
  rw [List.find?_append, List.find?_eq_none.2 h1, Option.none_or]

theorem mem_toList_idx_lt {t : FixedRedBlackTree K V C} (h : t.WFT)
    {e : Ent K V} (he : e ∈ t.toList) : e.idx < C :=
  h.used_lt e.idx (List.mem_map.2 ⟨e, he, rfl⟩)

theorem mem_toList_idx_ne_null {t : FixedRedBlackTree K V C} (h : t.WFT)
    (hC : C ≤ NULL_INDEX) {e : Ent K V} (he : e ∈ t.toList) :
    e.idx ≠ NULL_INDEX :=
  Nat.ne_of_lt (lt_of_lt_of_le (mem_toList_idx_lt h he) hC)

theorem create_iterator_of_lt {m : FixedMap K V C} (hC : C ≤ NULL_INDEX)
    {i : NodeIndex} (hi : i < C) : m.create_iterator i = i := by
  simp only [FixedMap.create_iterator,
    FixedMap.replace_null_index_with_capacity_for_end_iterator]
  rw [if_neg (Nat.ne_of_lt (lt_of_lt_of_le hi hC))]

theorem cend_eq (m : FixedMap K V C) : m.cend = C := by
  simp [FixedMap.cend, FixedMap.create_iterator,
    FixedMap.replace_null_index_with_capacity_for_end_iterator]

theorem tree_toList_sorted {t : FixedRedBlackTree K V C} (h : t.WFT) :
    t.toList.Pairwise fun a b => a.key < b.key :=
  toList_sorted_keys h.ordered

theorem key_at_of_mem {t : FixedRedBlackTree K V C} (h : t.WFT)
    {e : Ent K V} (he : e ∈ t.toList) : t.key_at e.idx = some e.key := by
  rw [FixedRedBlackTree.key_at, entry_at_of_mem h he]
  rfl

theorem succ_at {t : FixedRedBlackTree K V C} (h : t.WFT)
    {L1 L2 : List (Ent K V)} {e : Ent K V} (hdec : t.toList = L1 ++ e :: L2) :
    t.index_of_successor_at e.idx = (L2.head?.map Ent.idx).getD NULL_INDEX := by
  have he : e ∈ t.toList := by
    rw [hdec]
    exact List.mem_append.2 (.inr (List.mem_cons_self _ _))
  have hs : (L1 ++ e :: L2).Pairwise (fun a b : Ent K V => a.key < b.key) := by
    rw [← hdec]
    exact tree_toList_sorted h
  rw [List.pairwise_append] at hs
  have hL1e : ∀ x ∈ L1, x.key < e.key := fun x hx =>
    hs.2.2 x hx e (List.mem_cons_self _ _)
  have heL2 : ∀ b ∈ L2, e.key < b.key := fun b hb =>
    (List.pairwise_cons.1 hs.2.1).1 b hb
  have hpre : ∀ x ∈ L1, ¬ (decide (e.key < x.key)) = true := by
    intro x hx
    simp only [decide_eq_true_eq]
    exact fun hlt => absurd (hL1e x hx) (lt_asymm hlt)
  rw [FixedRedBlackTree.index_of_successor_at, key_at_of_mem h he,
    Option.some_bind, hdec, find?_prefix_false hpre]
  cases L2 with
  | nil => simp [List.find?]
  | cons b L2' =>
    have hb := heL2 b (List.mem_cons_self _ _)
    simp [List.find?, hb]

theorem pred_at {t : FixedRedBlackTree K V C} (h : t.WFT)
    {L1 L2 : List (Ent K V)} {e : Ent K V} (hdec : t.toList = L1 ++ e :: L2) :
    t.index_of_predecessor_at e.idx =
      (L1.reverse.head?.map Ent.idx).getD NULL_INDEX := by
  have he : e ∈ t.toList := by
    rw [hdec]
    exact List.mem_append.2 (.inr (List.mem_cons_self _ _))
  have hs : (L1 ++ e :: L2).Pairwise (fun a b : Ent K V => a.key < b.key) := by
    rw [← hdec]
    exact tree_toList_sorted h
  rw [List.pairwise_append] at hs
  have hL1e : ∀ x ∈ L1, x.key < e.key := fun x hx =>
    hs.2.2 x hx e (List.mem_cons_self _ _)
  have heL2 : ∀ b ∈ L2, e.key < b.key := fun b hb =>
    (List.pairwise_cons.1 hs.2.1).1 b hb
  have hrev : t.toList.reverse = L2.reverse ++ e :: L1.reverse := by
    rw [hdec]
    simp
  have hpre : ∀ x ∈ L2.reverse, ¬ (decide (x.key < e.key)) = true := by
    intro x hx
    simp only [decide_eq_true_eq]
    exact fun hlt => absurd (heL2 x (List.mem_reverse.1 hx)) (lt_asymm hlt)
  rw [FixedRedBlackTree.index_of_predecessor_at, key_at_of_mem h he,
    Option.some_bind, hrev, find?_prefix_false hpre]
  cases hL1 : L1.reverse with
  | nil => simp [List.find?]
  | cons b L1' =>
    have hb : b ∈ L1 := List.mem_reverse.1 (hL1 ▸ List.mem_cons_self _ _)
    simp [List.find?, hL1e b hb]

theorem fwdFrom_at_C (m : FixedMap K V C) : ∀ fuel, m.fwdFrom fuel C = [] := by
  intro fuel
  cases fuel with
  | zero => rfl
  | succ f => simp [FixedMap.fwdFrom]

theorem revFrom_at_null {m : FixedMap K V C} (hC : C ≤ NULL_INDEX) :
    ∀ fuel, m.revFrom fuel NULL_INDEX = [] := by
  intro fuel
  cases fuel with
  | zero => rfl
  | succ f => simp [FixedMap.revFrom]

theorem fwdFrom_decomp {m : FixedMap K V C} (h : m.WF) (hC : C ≤ NULL_INDEX) :
    ∀ (L2 L1 : List (Ent K V)) (e : Ent K V) (fuel : Nat),
      m.tree_.toList = L1 ++ e :: L2 → L2.length < fuel →
      m.fwdFrom fuel e.idx =
        (e.key, e.val) :: (L2.map fun x => (x.key, x.val)) := by
  intro L2
  induction L2 with
  | nil =>
    intro L1 e fuel hdec hfuel
    have he : e ∈ m.tree_.toList := by
      rw [hdec]
      exact List.mem_append.2 (.inr (List.mem_cons_self _ _))
    have hlt : e.idx < C := mem_toList_idx_lt h he
    cases fuel with
    | zero => omega
    | succ f =>
      rw [FixedMap.fwdFrom, if_neg (Nat.ne_of_lt hlt), entry_at_of_mem h he]
      have hadv : m.advance e.idx = C := by
        rw [FixedMap.advance, if_neg (mem_toList_idx_ne_null h hC he),
          succ_at h hdec]
        simp [FixedMap.replace_null_index_with_capacity_for_end_iterator]
      rw [hadv, fwdFrom_at_C]
      simp
  | cons b L2' ih =>
    intro L1 e fuel hdec hfuel
    have he : e ∈ m.tree_.toList := by
      rw [hdec]
      exact List.mem_append.2 (.inr (List.mem_cons_self _ _))
    have hb : b ∈ m.tree_.toList := by
      rw [hdec]
      exact List.mem_append.2 (.inr (List.mem_cons_of_mem _ (List.mem_cons_self _ _)))
    have hlt : e.idx < C := mem_toList_idx_lt h he
    cases fuel with
    | zero => omega
    | succ f =>
      rw [FixedMap.fwdFrom, if_neg (Nat.ne_of_lt hlt), entry_at_of_mem h he]
      have hadv : m.advance e.idx = b.idx := by
        rw [FixedMap.advance, if_neg (mem_toList_idx_ne_null h hC he),
          succ_at h hdec]
        simp [FixedMap.replace_null_index_with_capacity_for_end_iterator,
          mem_toList_idx_ne_null h hC hb]
      rw [hadv]
      have hdec2 : m.tree_.toList = (L1 ++ [e]) ++ b :: L2' := by
        rw [hdec]
        simp
      rw [ih (L1 ++ [e]) b f hdec2
        (by simp only [List.length_cons] at hfuel; omega)]
      simp

theorem revFrom_decomp {m : FixedMap K V C} (h : m.WF) (hC : C ≤ NULL_INDEX) :
    ∀ (L1 L2 : List (Ent K V)) (e : Ent K V) (fuel : Nat),
      m.tree_.toList = L1 ++ e :: L2 → L1.length < fuel →
      m.revFrom fuel e.idx =
        (e.key, e.val) :: (L1.reverse.map fun x => (x.key, x.val)) := by
  intro L1
  induction L1 using List.reverseRecOn with
  | nil =>
    intro L2 e fuel hdec hfuel
    have he : e ∈ m.tree_.toList := by
      rw [hdec]
      exact List.mem_cons_self _ _
    have hlt : e.idx < C := mem_toList_idx_lt h he
    cases fuel with
    | zero => omega
    | succ f =>
      rw [FixedMap.revFrom, if_neg (mem_toList_idx_ne_null h hC he),
        entry_at_of_mem h he]
      have hrec : m.recede e.idx = NULL_INDEX := by
        rw [FixedMap.recede, if_neg (Nat.ne_of_lt hlt), pred_at h hdec]
        simp
      rw [hrec, revFrom_at_null hC]
      simp
  | append_singleton L1' b ih =>
    intro L2 e fuel hdec hfuel
    have he : e ∈ m.tree_.toList := by
      rw [hdec]
      exact List.mem_append.2 (.inr (List.mem_cons_self _ _))
    have hlt : e.idx < C := mem_toList_idx_lt h he
    cases fuel with
    | zero => omega
    | succ f =>
      rw [FixedMap.revFrom, if_neg (mem_toList_idx_ne_null h hC he),
        entry_at_of_mem h he]
      have hrec : m.recede e.idx = b.idx := by
        rw [FixedMap.recede, if_neg (Nat.ne_of_lt hlt), pred_at h hdec]
        simp
      rw [hrec]
      have hdec2 : m.tree_.toList = L1' ++ b :: (e :: L2) := by
        rw [hdec]
        simp
      rw [ih (e :: L2) b f hdec2
        (by simp only [List.length_append, List.length_cons,
          List.length_nil] at hfuel; omega)]
      simp

end Iteration

section Traversal

variable {K V : Type} [LinearOrder K] {C : Nat}

open FixedRedBlackTree

theorem tree_size_eq_toList_length (t : FixedRedBlackTree K V C) :
    t.size = t.toList.length :=
  Batteries.RBNode.size_eq

theorem map_size_eq_toList_length (m : FixedMap K V C) :
    m.size = m.tree_.toList.length :=
  tree_size_eq_toList_length m.tree_

theorem entries_length (m : FixedMap K V C) : m.entries.length = m.size := by
  rw [FixedMap.entries, FixedRedBlackTree.entries, List.length_map,
    map_size_eq_toList_length]

theorem index_of_min_at_eq (t : FixedRedBlackTree K V C) :
    t.index_of_min_at = (t.toList.head?.map Ent.idx).getD NULL_INDEX := by
  have h1 : t.toList.head? = t.root.min? :=
    (Batteries.RBNode.min?_eq_toList_head?).symm
  rw [h1]
  cases hm : t.root.min? <;> simp [FixedRedBlackTree.index_of_min_at, hm]

theorem index_of_max_at_eq (t : FixedRedBlackTree K V C) :
    t.index_of_max_at = (t.toList.getLast?.map Ent.idx).getD NULL_INDEX := by
  have h1 : t.toList.getLast? = t.root.max? :=
    (Batteries.RBNode.max?_eq_toList_getLast?).symm
  rw [h1]
  cases hm : t.root.max? <;> simp [FixedRedBlackTree.index_of_max_at, hm]

theorem cbegin_of_empty {m : FixedMap K V C} (htl : m.tree_.toList = []) :
    m.cbegin = C := by
  simp [FixedMap.cbegin, FixedMap.create_iterator, index_of_min_at_eq, htl,
    FixedMap.replace_null_index_with_capacity_for_end_iterator]

theorem cbegin_of_cons {m : FixedMap K V C} (h : m.WF) (hC : C ≤ NULL_INDEX)
    {e : Ent K V} {L2 : List (Ent K V)}
    (htl : m.tree_.toList = e :: L2) : m.cbegin = e.idx := by
  have he : e ∈ m.tree_.toList := htl ▸ List.mem_cons_self _ _
  simp [FixedMap.cbegin, FixedMap.create_iterator, index_of_min_at_eq, htl,
    FixedMap.replace_null_index_with_capacity_for_end_iterator,
    mem_toList_idx_ne_null h hC he]

theorem fwdList_eq_entries {m : FixedMap K V C} (h : m.WF)
    (hC : C ≤ NULL_INDEX) : m.fwdList = m.entries := by
  rcases htl : m.tree_.toList with _ | ⟨e, L2⟩
  · rw [FixedMap.fwdList, cbegin_of_empty htl, fwdFrom_at_C]
    simp [FixedMap.entries, FixedRedBlackTree.entries, htl]
  · have hsz : m.size = L2.length + 1 := by
      rw [map_size_eq_toList_length, htl, List.length_cons]
    rw [FixedMap.fwdList, cbegin_of_cons h hC htl,
      fwdFrom_decomp h hC L2 [] e (m.size + 1) (by simpa using htl) (by omega)]
    simp [FixedMap.entries, FixedRedBlackTree.entries, htl]

theorem rbegin_of_empty {m : FixedMap K V C} (htl : m.tree_.toList = []) :
    m.rbegin = NULL_INDEX := by
  have hce : m.create_iterator C = C := by
    simp [FixedMap.create_iterator,
      FixedMap.replace_null_index_with_capacity_for_end_iterator]
  rw [FixedMap.rbegin, hce, FixedMap.recede, if_pos rfl, index_of_max_at_eq,
    htl]
  simp

theorem rbegin_of_concat {m : FixedMap K V C} {e : Ent K V}
    {L1 : List (Ent K V)} (htl : m.tree_.toList = L1 ++ [e]) :
    m.rbegin = e.idx := by
  have hce : m.create_iterator C = C := by
    simp [FixedMap.create_iterator,
      FixedMap.replace_null_index_with_capacity_for_end_iterator]
  rw [FixedMap.rbegin, hce, FixedMap.recede, if_pos rfl, index_of_max_at_eq,
    htl]
  simp

theorem revList_eq_entries_reverse {m : FixedMap K V C} (h : m.WF)
    (hC : C ≤ NULL_INDEX) : m.revList = m.entries.reverse := by
  rcases List.eq_nil_or_concat m.tree_.toList with htl | ⟨L1, e, htl⟩
  · rw [FixedMap.revList, rbegin_of_empty htl, revFrom_at_null hC]
    simp [FixedMap.entries, FixedRedBlackTree.entries, htl]
  · rw [List.concat_eq_append] at htl
    have hsz : m.size = L1.length + 1 := by
      rw [map_size_eq_toList_length, htl]
      simp
    rw [FixedMap.revList, rbegin_of_concat htl,
      revFrom_decomp h hC L1 [] e (m.size + 1) (by simpa using htl) (by omega)]
    simp [FixedMap.entries, FixedRedBlackTree.entries, htl]

theorem entry_at_null_none {t : FixedRedBlackTree K V C} (h : t.WFT)
    (hC : C ≤ NULL_INDEX) : t.entry_at NULL_INDEX = none := by
  rw [FixedRedBlackTree.entry_at]
  rw [List.find?_eq_none]
  intro e he
  simp only [beq_iff_eq]
  exact mem_toList_idx_ne_null h hC he

theorem rend_eq_null {m : FixedMap K V C} (h : m.WF) (hC : C ≤ NULL_INDEX) :
    m.rend = NULL_INDEX := by
  rcases htl : m.tree_.toList with _ | ⟨e, L2⟩
  · have hmin : m.tree_.index_of_min_at = NULL_INDEX := by
      rw [index_of_min_at_eq, htl]
      rfl
    rw [FixedMap.rend, hmin, FixedMap.recede]
    by_cases hN : NULL_INDEX = C
    · rw [if_pos hN, index_of_max_at_eq, htl]
      rfl
    · rw [if_neg hN, FixedRedBlackTree.index_of_predecessor_at,
        FixedRedBlackTree.key_at, entry_at_null_none h hC]
      rfl
  · have he : e ∈ m.tree_.toList := htl ▸ List.mem_cons_self _ _
    have hlt : e.idx < C := mem_toList_idx_lt h he
    have hmin : m.tree_.index_of_min_at = e.idx := by
      rw [index_of_min_at_eq, htl]
      rfl
    rw [FixedMap.rend, hmin, FixedMap.recede, if_neg (Nat.ne_of_lt hlt),
      pred_at h (show m.tree_.toList = [] ++ e :: L2 by simpa using htl)]
    rfl

theorem cbegin_eq_cend_iff {m : FixedMap K V C} (h : m.WF)
    (hC : C ≤ NULL_INDEX) : (m.cbegin = m.cend) ↔ m.empty = true := by
  rw [cend_eq]
  rcases htl : m.tree_.toList with _ | ⟨e, L2⟩
  · simp [cbegin_of_empty htl, FixedMap.empty, FixedRedBlackTree.empty,
      tree_size_eq_toList_length, htl]
  · have he : e ∈ m.tree_.toList := htl ▸ List.mem_cons_self _ _
    have hlt : e.idx < C := mem_toList_idx_lt h he
    rw [cbegin_of_cons h hC htl]
    simp [Nat.ne_of_lt hlt, FixedMap.empty, FixedRedBlackTree.empty,
      tree_size_eq_toList_length, htl]

end Traversal

section ClaimSupport

variable {K V : Type} [LinearOrder K] {C : Nat}

open FixedRedBlackTree

theorem contains_true_iff {m : FixedMap K V C} {k : K} :
    m.contains k = true ↔ ∃ e, m.tree_.find? k = some e := by
  simp [FixedMap.contains, FixedRedBlackTree.contains_node,
    Option.isSome_iff_exists]

theorem contains_false_iff {m : FixedMap K V C} {k : K} :
    m.contains k = false ↔ m.tree_.find? k = none := by
  cases hf : m.tree_.find? k <;>
    simp [FixedMap.contains, FixedRedBlackTree.contains_node, hf]

theorem freeStack_cons_of_size_lt {m : FixedMap K V C} (h : m.WF)
    (hsz : m.size < C) : ∃ i rest, m.tree_.freeStack = i :: rest := by
  have hcount := h.used_free_count
  cases hfs : m.tree_.freeStack with
  | nil =>
    rw [hfs] at hcount
    simp only [List.length_nil, Nat.add_zero] at hcount
    exact absurd hcount (Nat.ne_of_lt hsz)
  | cons i rest => exact ⟨i, rest, rfl⟩

theorem insert_eq_of_find?_some {m : FixedMap K V C} {k : K} {v : V}
    {e : Ent K V} (hf : m.tree_.find? k = some e) :
    m.insert (k, v) = some (m, m.create_iterator e.idx, false) := by
  simp [FixedMap.insert, FixedRedBlackTree.index_of_node_with_parent, hf,
    contains_at_of_find?_some hf]

theorem insert_eq_of_absent {m : FixedMap K V C} (h : m.WF) {k : K} {v : V}
    {i : NodeIndex} {rest : List NodeIndex} (hf : m.tree_.find? k = none)
    (hfree : m.tree_.freeStack = i :: rest) :
    m.insert (k, v) = some
      (⟨⟨(m.tree_.root.insert entCmp { key := k, val := v, idx := i }).setBlack,
        rest⟩⟩, m.create_iterator i, true) := by
  simp [FixedMap.insert, FixedRedBlackTree.index_of_node_with_parent, hf,
    hfree, contains_at_head_free h hfree, FixedRedBlackTree.insert_new_at]

theorem insert_or_assign_eq_present {m : FixedMap K V C} {k : K} {v : V}
    {e : Ent K V} (hf : m.tree_.find? k = some e) :
    m.insert_or_assign k v = some
      (⟨m.tree_.set_value_at e.idx v⟩, m.create_iterator e.idx, false) := by
  simp [FixedMap.insert_or_assign, FixedRedBlackTree.index_of_node_with_parent,
    hf, contains_at_of_find?_some hf]

theorem insert_or_assign_eq_absent {m : FixedMap K V C} (h : m.WF) {k : K}
    {v : V} {i : NodeIndex} {rest : List NodeIndex}
    (hf : m.tree_.find? k = none) (hfree : m.tree_.freeStack = i :: rest) :
    m.insert_or_assign k v = some
      (⟨⟨(m.tree_.root.insert entCmp { key := k, val := v, idx := i }).setBlack,
        rest⟩⟩, m.create_iterator i, true) := by
  simp [FixedMap.insert_or_assign, FixedRedBlackTree.index_of_node_with_parent,
    hf, hfree, contains_at_head_free h hfree, FixedRedBlackTree.insert_new_at]

theorem at'_present [Inhabited V] {m : FixedMap K V C} (h : m.WF) {k : K}
    {e : Ent K V} (hf : m.tree_.find? k = some e) (loc : SourceLocation) :
    m.at' k loc = .ok e.val := by
  have he : e ∈ m.tree_.toList :=
    Batteries.RBNode.mem_toList.2 (Batteries.RBNode.find?_some_mem hf)
  simp [FixedMap.at', FixedRedBlackTree.index_of_node_or_null, hf,
    contains_at_of_find?_some hf, FixedRedBlackTree.value_at,
    entry_at_of_mem h he]

theorem at'_absent [Inhabited V] {m : FixedMap K V C} (h : m.WF)
    (hC : C ≤ NULL_INDEX) {k : K} (hf : m.tree_.find? k = none)
    (loc : SourceLocation) :
    m.at' k loc = .error { key := k, size := m.size, loc := loc } := by
  simp [FixedMap.at', FixedRedBlackTree.index_of_node_or_null, hf,
    contains_at_null_false h hC]

theorem key_unique {l : List (Ent K V)}
    (hs : l.Pairwise fun a b => a.key < b.key) {x y : Ent K V}
    (hx : x ∈ l) (hy : y ∈ l) (hk : x.key = y.key) : x = y := by
  induction l with
  | nil => cases hx
  | cons a t ih =>
    rcases List.mem_cons.1 hx with hxa | hx
    · rcases List.mem_cons.1 hy with hya | hy
      · rw [hxa, hya]
      · rw [hxa] at hk ⊢
        exact absurd hk (ne_of_lt ((List.pairwise_cons.1 hs).1 y hy))
    · rcases List.mem_cons.1 hy with hya | hy
      · rw [hya] at hk ⊢
        exact absurd hk.symm (ne_of_lt ((List.pairwise_cons.1 hs).1 x hx))
      · exact ih (List.pairwise_cons.1 hs).2 hx hy

theorem find?_key_eq {t : FixedRedBlackTree K V C} (h : t.WFT) {k : K}
    {e : Ent K V} (hf : t.find? k = some e) : e.key = k :=
  ((find?_some_iff h.ordered).1 hf).2

theorem erase_find?_none {m : FixedMap K V C} (h : m.WF) {k : K}
    {e : Ent K V} (hf : m.tree_.find? k = some e) :
    (m.erase k).1.tree_.find? k = none := by
  rw [erase_eq_present hf]
  obtain ⟨L, R, h1, h2⟩ := erase_toList (keyCut k) m.tree_.root e hf
  have hord : (m.tree_.root.erase (keyCut k)).Ordered entCmp := h.ordered.erase
  have hkey : e.key = k := find?_key_eq h hf
  have hs : (L ++ e :: R).Pairwise (fun a b : Ent K V => a.key < b.key) := by
    rw [← h1]
    exact toList_sorted_keys h.ordered
  rw [List.pairwise_append] at hs
  rw [show (FixedRedBlackTree.find?
      (⟨(⟨m.tree_.root.erase (keyCut k), e.idx :: m.tree_.freeStack⟩ :
        FixedRedBlackTree K V C)⟩ : FixedMap K V C).tree_ k)
      = (m.tree_.root.erase (keyCut k)).find? (keyCut k) from rfl]
  rw [find?_none_iff hord]
  intro x hx
  have hx2 : x ∈ L ++ R := by
    have : (m.tree_.root.erase (keyCut k)).toList = L ++ R := h2
    rw [← this]
    exact hx
  rcases List.mem_append.1 hx2 with hx2 | hx2
  · exact fun hk2 =>
      absurd (hs.2.2 x hx2 e (List.mem_cons_self _ _))
        (by rw [hk2, hkey]; exact lt_irrefl _)
  · exact fun hk2 =>
      absurd ((List.pairwise_cons.1 hs.2.1).1 x hx2)
        (by rw [hk2, hkey]; exact lt_irrefl _)

theorem entries_sorted {m : FixedMap K V C} (h : m.WF) :
    m.entries.Pairwise fun p q => p.1 < q.1 := by
  rw [FixedMap.entries, FixedRedBlackTree.entries, List.pairwise_map]
  exact tree_toList_sorted h

theorem entries_nodup {m : FixedMap K V C} (h : m.WF) : m.entries.Nodup :=
  (entries_sorted h).imp fun hpq heq => absurd (heq ▸ hpq) (lt_irrefl _)

theorem sameEntries_iff_entries_eq {C2 : Nat} {A : FixedMap K V C}
    {B : FixedMap K V C2} (hA : A.WF) (hB : B.WF) :
    A.sameEntries B ↔ A.entries = B.entries := by
  constructor
  · rintro ⟨hsz, h1, h2⟩
    haveI : IsAntisymm (K × V) (fun p q => p.1 < q.1) :=
      ⟨fun a b ha hb => absurd hb (lt_asymm ha)⟩
    refine List.eq_of_perm_of_sorted ?_ (entries_sorted hA) (entries_sorted hB)
    exact (List.perm_ext_iff_of_nodup (entries_nodup hA) (entries_nodup hB)).2
      fun p => ⟨h1 p, h2 p⟩
  · intro he
    refine ⟨?_, fun p hp => he ▸ hp, fun p hp => he ▸ hp⟩
    rw [← entries_length, ← entries_length, he]

theorem beq_iff_sameEntries [DecidableEq V] {C2 : Nat} {A : FixedMap K V C}
    {B : FixedMap K V C2} (hA : A.WF) (hB : B.WF) (h1 : C ≤ NULL_INDEX)
    (h2 : C2 ≤ NULL_INDEX) : A.beq B = true ↔ A.sameEntries B := by
  rw [FixedMap.beq, Bool.or_eq_true, Bool.and_eq_true]
  constructor
  · rintro (hid | ⟨hsz, hlist⟩)
    · by_cases hcc : C = C2
      · subst hcc
        rw [dif_pos rfl] at hid
        have hab : A = B := of_decide_eq_true hid
        subst hab
        exact ⟨rfl, fun p hp => hp, fun p hp => hp⟩
      · rw [dif_neg hcc] at hid
        exact absurd (of_decide_eq_true hid) id
    · rw [beq_iff_eq] at hsz hlist
      rw [fwdList_eq_entries hA h1, fwdList_eq_entries hB h2] at hlist
      exact (sameEntries_iff_entries_eq hA hB).2 hlist
  · intro hse
    have he := (sameEntries_iff_entries_eq hA hB).1 hse
    refine .inr ⟨beq_iff_eq.2 hse.1, beq_iff_eq.2 ?_⟩
    rw [fwdList_eq_entries hA h1, fwdList_eq_entries hB h2]
    exact he

theorem set_value_entry_at {m : FixedMap K V C} (h : m.WF) {k : K}
    {e : Ent K V} (hf : m.tree_.find? k = some e) (v : V) :
    (m.tree_.set_value_at e.idx v).entry_at e.idx
      = some { key := k, val := v, idx := e.idx } := by
  have he : e ∈ m.tree_.toList :=
    Batteries.RBNode.mem_toList.2 (Batteries.RBNode.find?_some_mem hf)
  have hkey : e.key = k := find?_key_eq h hf
  have hw : (m.tree_.set_value_at e.idx v).WFT := wft_set_value h e.idx v
  have htl : (m.tree_.set_value_at e.idx v).toList = m.tree_.toList.map fun x =>
      if x.idx = e.idx then { key := x.key, val := v, idx := x.idx } else x :=
    set_value_at_root_toList e.idx v m.tree_.root
  have hmem : ({ key := k, val := v, idx := e.idx } : Ent K V)
      ∈ (m.tree_.set_value_at e.idx v).toList := by
    rw [htl]
    refine List.mem_map.2 ⟨e, he, ?_⟩
    rw [if_pos rfl, hkey]
  exact entry_at_of_mem hw hmem

theorem idx_inj {t : FixedRedBlackTree K V C} (h : t.WFT) {x e : Ent K V}
    (hx : x ∈ t.toList) (he : e ∈ t.toList) (hxe : x.idx = e.idx) : x = e := by
  have h1 := entry_at_of_mem h hx
  have h2 := entry_at_of_mem h he
  rw [hxe] at h1
  rw [h1] at h2
  exact Option.some.inj h2

theorem set_value_size {m : FixedMap K V C} (i : NodeIndex) (v : V) :
    (FixedMap.size (⟨m.tree_.set_value_at i v⟩ : FixedMap K V C)) = m.size := by
  rw [map_size_eq_toList_length, map_size_eq_toList_length]
  show (set_value_at_root i v m.tree_.root).toList.length
    = m.tree_.root.toList.length
  rw [set_value_at_root_toList i v m.tree_.root, List.length_map]

theorem set_value_entries {m : FixedMap K V C} (h : m.WF) {k : K}
    {e : Ent K V} (hf : m.tree_.find? k = some e) (v : V) :
    (FixedMap.entries (⟨m.tree_.set_value_at e.idx v⟩ : FixedMap K V C))
      = m.entries.map fun p => if p.1 = k then (k, v) else p := by
  have hkey : e.key = k := find?_key_eq h hf
  have he : e ∈ m.tree_.toList :=
    Batteries.RBNode.mem_toList.2 (Batteries.RBNode.find?_some_mem hf)
  have hs := tree_toList_sorted h
  show ((set_value_at_root e.idx v m.tree_.root).toList.map fun x =>
      (x.key, x.val))
    = (m.tree_.root.toList.map fun x => (x.key, x.val)).map fun p =>
      if p.1 = k then (k, v) else p
  rw [set_value_at_root_toList e.idx v m.tree_.root, List.map_map,
    List.map_map]
  refine List.map_congr_left fun x hx => ?_
  simp only [Function.comp]
  by_cases hxi : x.idx = e.idx
  · have hxe : x = e := idx_inj h hx he hxi
    subst hxe
    rw [if_pos hxi, if_pos hkey]
    simp [hkey]
  · have hxk : ¬ x.key = k := by
      intro hk2
      exact hxi (by rw [key_unique hs hx he (hk2.trans hkey.symm)])
    rw [if_neg hxi, if_neg hxk]

section MkLemmas

variable {K V : Type} [LinearOrder K] {C : Nat}

theorem tree_of_mk (t : FixedRedBlackTree K V C) :
    (⟨t⟩ : FixedMap K V C).tree_ = t := rfl

end MkLemmas

end ClaimSupport

section Fixtures

theorem sampleEmpty_wf : sampleEmpty.WF :=
  wf_init

theorem sampleOne_insert_eq : sampleEmpty.insert (2, 20) = some (sampleOne, 0, true) :=
  rfl

theorem sampleOne_wf : sampleOne.WF :=
  wf_insert wf_init (by decide) sampleOne_insert_eq

theorem sampleOneBig_insert_eq :
    (FixedMap.init Nat Nat 5).insert (2, 20) = some (sampleOneBig, 0, true) :=
  rfl

theorem sampleOneBig_wf : sampleOneBig.WF :=
  wf_insert wf_init (by decide) sampleOneBig_insert_eq

end Fixtures

section Claims

/-- C1: after every completed public mutation of the map (`insert`,
`insert_or_assign`, `try_emplace`, `emplace`, `erase` — by key or by
iterator — and `clear`), the reachable tree satisfies all four red-black
invariants: binary-search-tree order consistent with the comparator over all
reachable occupied nodes, a black root, no red node with a red child, and an
equal black-node count on every root-to-null path. -/
theorem claim_C1_rb_invariants {K V : Type} [LinearOrder K] {C : Nat}
    (m : FixedMap K V C) (h : m.WF) (hC : C ≤ NULL_INDEX) :
    (∀ p r, m.insert p = some r → RBInv.RBInvariants r.1.tree_.root) ∧
    (∀ k v r, m.insert_or_assign k v = some r →
      RBInv.RBInvariants r.1.tree_.root) ∧
    (∀ k v r, m.try_emplace k v = some r → RBInv.RBInvariants r.1.tree_.root) ∧
    (∀ p r, m.emplace p = some r → RBInv.RBInvariants r.1.tree_.root) ∧
    (∀ k, RBInv.RBInvariants (m.erase k).1.tree_.root) ∧
    (∀ pos, RBInv.RBInvariants (m.erase_pos pos).1.tree_.root) ∧
    RBInv.RBInvariants m.clear.tree_.root := by
  refine ⟨fun p r hr => rb_invariants_of_wft (wf_insert h hC hr),
    fun k v r hr => rb_invariants_of_wft (wf_insert_or_assign h hC hr),
    fun k v r hr =>
      rb_invariants_of_wft (wf_insert h hC (try_emplace_eq_insert m k v ▸ hr)),
    fun p r hr =>
      rb_invariants_of_wft (wf_insert h hC (emplace_eq_insert m p ▸ hr)),
    fun k => rb_invariants_of_wft (wf_erase h k),
    fun pos => rb_invariants_of_wft (wf_erase_pos h pos),
    rb_invariants_of_wft (wf_clear m)⟩

theorem claim_C1_rb_invariants_witness :
    RBInv.RBInvariants ((sampleOne.erase 2).1.tree_.root) ∧
    RBInv.RBInvariants (sampleOne.clear.tree_.root) :=
  ⟨(claim_C1_rb_invariants sampleOne sampleOne_wf (by decide)).2.2.2.2.1 2,
   (claim_C1_rb_invariants sampleOne sampleOne_wf (by decide)).2.2.2.2.2.2⟩

/-- C2: inserting an already-present key is a no-op — the map (hence the
stored value and the size) is unchanged and the call returns the existing
entry's iterator with `wasInserted = false`; inserting an absent key into a
non-full map adds exactly that entry (all other entries unchanged, in
place), increases the size by one, and returns the new entry's iterator with
`wasInserted = true`. -/
theorem claim_C2_insert {K V : Type} [LinearOrder K] {C : Nat}
    (m : FixedMap K V C) (h : m.WF) (hC : C ≤ NULL_INDEX) (k : K) (v : V) :
    (∀ e, m.tree_.find? k = some e →
      m.insert (k, v) = some (m, e.idx, false) ∧
      m.tree_.entry_at e.idx = some e ∧ e.key = k) ∧
    (m.tree_.find? k = none → m.size < C →
      ∃ m2 i, m.insert (k, v) = some (m2, i, true) ∧ m2.WF ∧
        m2.size = m.size + 1 ∧
        m2.tree_.entry_at i = some { key := k, val := v, idx := i } ∧
        ∃ L R, m.entries = L ++ R ∧ m2.entries = L ++ (k, v) :: R) := by
  constructor
  · intro e hf
    have he : e ∈ m.tree_.toList :=
      Batteries.RBNode.mem_toList.2 (Batteries.RBNode.find?_some_mem hf)
    have hlt := mem_toList_idx_lt h he
    refine ⟨?_, entry_at_of_mem h he, find?_key_eq h hf⟩
    rw [insert_eq_of_find?_some hf, create_iterator_of_lt hC hlt]
  · intro hf hsz
    obtain ⟨i, rest, hfree⟩ := freeStack_cons_of_size_lt h hsz
    have hiC : i < C := h.free_lt i (hfree ▸ List.mem_cons_self _ _)
    have hw := wft_insert_new h hf v hfree
    obtain ⟨n, hb⟩ := h.balanced
    obtain ⟨L, R, h1, h2⟩ := insert_setBlack_toList_absent hb hf v i
    refine ⟨⟨⟨(m.tree_.root.insert entCmp { key := k, val := v, idx := i }).setBlack,
      rest⟩⟩, i, ?_, hw, ?_, ?_, ?_⟩
    · rw [insert_eq_of_absent h hf hfree, create_iterator_of_lt hC hiC]
    · have h1t : m.tree_.toList = L ++ R := h1
      have h2t : (FixedRedBlackTree.toList
          (⟨(m.tree_.root.insert entCmp { key := k, val := v, idx := i }).setBlack,
            rest⟩ : FixedRedBlackTree K V C))
          = L ++ ({ key := k, val := v, idx := i } : Ent K V) :: R := h2
      rw [map_size_eq_toList_length, map_size_eq_toList_length, tree_of_mk,
        h1t, h2t]
      simp only [List.length_append, List.length_cons]
      omega
    · have h2t : (FixedRedBlackTree.toList
          (⟨(m.tree_.root.insert entCmp { key := k, val := v, idx := i }).setBlack,
            rest⟩ : FixedRedBlackTree K V C))
          = L ++ ({ key := k, val := v, idx := i } : Ent K V) :: R := h2
      rw [tree_of_mk]
      exact entry_at_of_mem hw
        (by rw [h2t]; exact List.mem_append.2 (.inr (List.mem_cons_self _ _)))
    · have h1t : m.tree_.toList = L ++ R := h1
      have h2t : (FixedRedBlackTree.toList
          (⟨(m.tree_.root.insert entCmp { key := k, val := v, idx := i }).setBlack,
            rest⟩ : FixedRedBlackTree K V C))
          = L ++ ({ key := k, val := v, idx := i } : Ent K V) :: R := h2
      refine ⟨L.map fun e => (e.key, e.val), R.map fun e => (e.key, e.val), ?_, ?_⟩
      · rw [FixedMap.entries, FixedRedBlackTree.entries, h1t, List.map_append]
      · rw [FixedMap.entries, tree_of_mk, FixedRedBlackTree.entries, h2t,
          List.map_append, List.map_cons]

theorem claim_C2_insert_witness :
    sampleOne.insert (2, 99) = some (sampleOne, 0, false) ∧
    sampleOne.tree_.entry_at 0 = some { key := 2, val := 20, idx := 0 } :=
  have happ := (claim_C2_insert sampleOne sampleOne_wf (by decide) 2 99).1
    { key := 2, val := 20, idx := 0 } rfl
  ⟨happ.1, happ.2.1⟩

/-- C3: forward iteration from `begin()` to `end()` visits exactly `size()`
entries in strictly increasing key order, and reverse iteration from
`rbegin()` to `rend()` visits the same entries in strictly decreasing key
order. -/
theorem claim_C3_traversal {K V : Type} [LinearOrder K] {C : Nat}
    (m : FixedMap K V C) (h : m.WF) (hC : C ≤ NULL_INDEX) :
    m.fwdList = m.entries ∧
    m.fwdList.length = m.size ∧
    (m.fwdList.map Prod.fst).Pairwise (fun a b => a < b) ∧
    m.revList = m.fwdList.reverse ∧
    (m.revList.map Prod.fst).Pairwise (fun a b => b < a) := by
  have h1 := fwdList_eq_entries h hC
  have h2 := revList_eq_entries_reverse h hC
  have hsorted : (m.entries.map Prod.fst).Pairwise (fun a b => a < b) := by
    rw [List.pairwise_map]
    exact entries_sorted h
  refine ⟨h1, by rw [h1, entries_length], by rw [h1]; exact hsorted,
    by rw [h2, h1], ?_⟩
  rw [h2, List.map_reverse, List.pairwise_reverse]
  exact hsorted

theorem claim_C3_traversal_witness :
    sampleOne.fwdList = sampleOne.entries ∧
    sampleOne.revList = sampleOne.fwdList.reverse :=
  ⟨(claim_C3_traversal sampleOne sampleOne_wf (by decide)).1,
   (claim_C3_traversal sampleOne sampleOne_wf (by decide)).2.2.2.1⟩

/-- C4: erasing an absent key returns 0 and leaves the map completely
unchanged; erasing a present key returns 1, reduces the size by exactly one,
and the key is no longer contained afterwards. -/
theorem claim_C4_erase {K V : Type} [LinearOrder K] {C : Nat}
    (m : FixedMap K V C) (h : m.WF) (k : K) :
    (m.contains k = false → m.erase k = (m, 0)) ∧
    (m.contains k = true →
      (m.erase k).2 = 1 ∧ (m.erase k).1.size + 1 = m.size ∧
      (m.erase k).1.contains k = false) := by
  constructor
  · intro hc
    exact erase_eq_absent (contains_false_iff.1 hc)
  · intro hc
    obtain ⟨e, hf⟩ := contains_true_iff.1 hc
    obtain ⟨L, R, h1, h2⟩ := erase_toList (keyCut k) m.tree_.root e hf
    refine ⟨by rw [erase_eq_present hf], ?_,
      contains_false_iff.2 (erase_find?_none h hf)⟩
    have h1t : m.tree_.toList = L ++ e :: R := h1
    rw [erase_eq_present hf]
    have h2t : (FixedRedBlackTree.toList
        (⟨m.tree_.root.erase (keyCut k), e.idx :: m.tree_.freeStack⟩ :
          FixedRedBlackTree K V C)) = L ++ R := h2
    rw [map_size_eq_toList_length, map_size_eq_toList_length, tree_of_mk,
      h1t, h2t]
    simp only [List.length_append, List.length_cons]
    omega

theorem claim_C4_erase_witness :
    sampleOne.erase 3 = (sampleOne, 0) ∧
    (sampleOne.erase 2).2 = 1 ∧
    (sampleOne.erase 2).1.contains 2 = false :=
  ⟨(claim_C4_erase sampleOne sampleOne_wf 3).1 rfl,
   ((claim_C4_erase sampleOne sampleOne_wf 2).2 rfl).1,
   ((claim_C4_erase sampleOne sampleOne_wf 2).2 rfl).2.2⟩

/-- C5 (as amended): `at(key)` returns the stored value when the key is
present; when the key is absent it invokes the injected out-of-range policy
exactly once, passing the key, the current size and the call site, and the
default policy aborts the process (its outcome carries no diagnostics and
does not depend on the arguments); no exception is thrown on either path
(`at'` is a total function into `Except`). -/
theorem claim_C5_at {K V : Type} [LinearOrder K] [Inhabited V] {C : Nat}
    (m : FixedMap K V C) (h : m.WF) (hC : C ≤ NULL_INDEX) (k : K)
    (loc : SourceLocation) :
    (∀ e, m.tree_.find? k = some e → m.at' k loc = .ok e.val) ∧
    (m.contains k = false →
      m.at' k loc = .error { key := k, size := m.size, loc := loc }) ∧
    (∀ c : OutOfRangeCall K,
      AbortChecking.out_of_range c.key c.size c.loc = { diagnostics := none }) :=
  ⟨fun _ hf => at'_present h hf loc,
   fun hc => at'_absent h hC (contains_false_iff.1 hc) loc,
   fun _ => rfl⟩

theorem claim_C5_at_witness :
    sampleOne.at' 2 0 = .ok 20 ∧
    sampleOne.at' 3 7 = .error { key := 3, size := 1, loc := 7 } :=
  ⟨(claim_C5_at sampleOne sampleOne_wf (by decide) 2 0).1
      { key := 2, val := 20, idx := 0 } rfl,
   (claim_C5_at sampleOne sampleOne_wf (by decide) 3 7).2.1 rfl⟩

/-- C5, counterexample to the claim as stated: the default checking policy
(`AbortChecking::out_of_range` in `fixed_map.hpp`) discards the key, the
size and the call site and calls `std::abort()` — the abort emits no
key/size/call-site diagnostics, and the outcome does not depend on those
arguments at all. -/
theorem claim_C5_counterexample :
    (AbortChecking.out_of_range (5 : Nat) 3 7).diagnostics = none ∧
    AbortChecking.out_of_range (5 : Nat) 3 7
      = AbortChecking.out_of_range 0 0 0 :=
  ⟨rfl, rfl⟩

/-- C6: two maps — even of different declared capacities — compare equal
exactly when they hold the same number of entries and every key/value pair
of one occurs in the other (an order-independent condition); the identity
short-circuit taken when the capacities coincide and the operands are the
same object never changes this logical result. -/
theorem claim_C6_equality {K V : Type} [LinearOrder K] [DecidableEq V]
    {C1 C2 : Nat} (A : FixedMap K V C1) (B : FixedMap K V C2)
    (hA : A.WF) (hB : B.WF) (h1 : C1 ≤ NULL_INDEX) (h2 : C2 ≤ NULL_INDEX) :
    A.beq B = true ↔ A.sameEntries B :=
  beq_iff_sameEntries hA hB h1 h2

theorem claim_C6_equality_witness : sampleOne.sameEntries sampleOneBig :=
  (claim_C6_equality sampleOne sampleOneBig sampleOne_wf sampleOneBig_wf
    (by decide) (by decide)).1 (by decide)

/-- C7: for a positive declared capacity (any capacity whose past-the-end
index is representable, i.e. below the reserved null value), the `end`
sentinel (`CAPACITY`) and the `rend` sentinel (`NULL_INDEX`) are distinct;
`end()` sits at `CAPACITY`, `rend()` sits at `NULL_INDEX`, and the iterators
the map produces use `CAPACITY` (never `NULL_INDEX`) for forward end
positions and `NULL_INDEX` (never `CAPACITY`) for reverse positions. -/
theorem claim_C7_sentinels {K V : Type} [LinearOrder K] {C : Nat}
    (m : FixedMap K V C) (h : m.WF) (h0 : 0 < C) (hC : C < NULL_INDEX) :
    (C : NodeIndex) ≠ NULL_INDEX ∧ m.cend = C ∧ m.rend = NULL_INDEX ∧
    m.cbegin ≠ NULL_INDEX ∧ (∀ k, m.find k ≠ NULL_INDEX) ∧
    m.rbegin ≠ C := by
  have hCne : (C : NodeIndex) ≠ NULL_INDEX := Nat.ne_of_lt hC
  have hle : C ≤ NULL_INDEX := le_of_lt hC
  refine ⟨hCne, cend_eq m, rend_eq_null h hle, ?_, ?_, ?_⟩
  · rcases htl : m.tree_.toList with _ | ⟨e, L2⟩
    · rw [cbegin_of_empty htl]
      exact hCne
    · rw [cbegin_of_cons h hle htl]
      exact mem_toList_idx_ne_null h hle (htl ▸ List.mem_cons_self _ _)
  · intro k
    by_cases hct : m.tree_.contains_at (m.tree_.index_of_node_or_null k) = true
    · obtain ⟨e, he, hei⟩ := contains_at_iff.1 hct
      have hfk : m.find k
          = m.create_iterator (m.tree_.index_of_node_or_null k) := by
        simp [FixedMap.find, hct]
      rw [hfk, ← hei, create_iterator_of_lt hle (mem_toList_idx_lt h he)]
      exact mem_toList_idx_ne_null h hle he
    · have hfk : m.find k = m.cend := by
        simp [FixedMap.find, hct]
      rw [hfk, cend_eq]
      exact hCne
  · rcases List.eq_nil_or_concat m.tree_.toList with htl | ⟨L1, e, htl⟩
    · rw [rbegin_of_empty htl]
      exact fun hh => hCne hh.symm
    · rw [List.concat_eq_append] at htl
      rw [rbegin_of_concat htl]
      exact Nat.ne_of_lt (mem_toList_idx_lt h
        (htl ▸ List.mem_append.2 (.inr (List.mem_cons_self _ _))))

theorem claim_C7_sentinels_witness :
    sampleOne.cend = 4 ∧ sampleOne.rend = NULL_INDEX :=
  ⟨(claim_C7_sentinels sampleOne sampleOne_wf (by decide) (by decide)).2.1,
   (claim_C7_sentinels sampleOne sampleOne_wf (by decide) (by decide)).2.2.1⟩

/-- C8: the builder is first-wins on duplicate keys: the insertion sequence
(3, 33), (2, 22), then the duplicate (2, 22222), then (3, 33) and (4, 44)
finalizes to a map with three entries whose value at key 2 is the first
inserted 22 (and 33 at key 3, 44 at key 4).  Keys model the test's ordinals
B = 2 < C = 3 < D = 4. -/
theorem claim_C8_builder_first_wins :
    (((((Builder.init Nat Nat 4).insert (3, 33)).bind fun b =>
          b.insert (2, 22)).bind fun b =>
          b.insert (2, 22222)).bind fun b =>
          b.insertList [(3, 33), (4, 44)]).map
        (fun b => (b.build.size, b.build.at' 2 0, b.build.at' 3 0,
          b.build.at' 4 0))
      = some (3, .ok 22, .ok 33, .ok 44) := by
  rfl

/-- C9: `insert_or_assign` returns `wasInserted = true` exactly when the key
was absent; on a present key it assigns the new value in place (size and all
other entries unchanged), on an absent key (in a non-full map) it inserts a
new entry and the size grows by one; in both cases the returned iterator
sits at the key's entry. -/
theorem claim_C9_insert_or_assign {K V : Type} [LinearOrder K] {C : Nat}
    (m : FixedMap K V C) (h : m.WF) (hC : C ≤ NULL_INDEX) (k : K) (v : V) :
    (∀ e, m.tree_.find? k = some e →
      ∃ m2, m.insert_or_assign k v = some (m2, e.idx, false) ∧ m2.WF ∧
        m2.size = m.size ∧
        m2.tree_.entry_at e.idx = some { key := k, val := v, idx := e.idx } ∧
        m2.entries = m.entries.map fun p => if p.1 = k then (k, v) else p) ∧
    (m.tree_.find? k = none → m.size < C →
      ∃ m2 i, m.insert_or_assign k v = some (m2, i, true) ∧ m2.WF ∧
        m2.size = m.size + 1 ∧
        m2.tree_.entry_at i = some { key := k, val := v, idx := i } ∧
        ∃ L R, m.entries = L ++ R ∧ m2.entries = L ++ (k, v) :: R) := by
  constructor
  · intro e hf
    have he : e ∈ m.tree_.toList :=
      Batteries.RBNode.mem_toList.2 (Batteries.RBNode.find?_some_mem hf)
    have hlt := mem_toList_idx_lt h he
    refine ⟨⟨m.tree_.set_value_at e.idx v⟩, ?_, wft_set_value h e.idx v,
      set_value_size e.idx v, ?_, set_value_entries h hf v⟩
    · rw [insert_or_assign_eq_present hf, create_iterator_of_lt hC hlt]
    · rw [tree_of_mk]
      exact set_value_entry_at h hf v
  · intro hf hsz
    obtain ⟨i, rest, hfree⟩ := freeStack_cons_of_size_lt h hsz
    have hiC : i < C := h.free_lt i (hfree ▸ List.mem_cons_self _ _)
    have hw := wft_insert_new h hf v hfree
    obtain ⟨n, hb⟩ := h.balanced
    obtain ⟨L, R, h1, h2⟩ := insert_setBlack_toList_absent hb hf v i
    refine ⟨⟨⟨(m.tree_.root.insert entCmp
      { key := k, val := v, idx := i }).setBlack, rest⟩⟩, i, ?_, hw, ?_, ?_, ?_⟩
    · rw [insert_or_assign_eq_absent h hf hfree, create_iterator_of_lt hC hiC]
    · have h1t : m.tree_.toList = L ++ R := h1
      have h2t : (FixedRedBlackTree.toList
          (⟨(m.tree_.root.insert entCmp { key := k, val := v, idx := i }).setBlack,
            rest⟩ : FixedRedBlackTree K V C))
          = L ++ ({ key := k, val := v, idx := i } : Ent K V) :: R := h2
      rw [map_size_eq_toList_length, map_size_eq_toList_length, tree_of_mk,
        h1t, h2t]
      simp only [List.length_append, List.length_cons]
      omega
    · have h2t : (FixedRedBlackTree.toList
          (⟨(m.tree_.root.insert entCmp { key := k, val := v, idx := i }).setBlack,
            rest⟩ : FixedRedBlackTree K V C))
          = L ++ ({ key := k, val := v, idx := i } : Ent K V) :: R := h2
      rw [tree_of_mk]
      exact entry_at_of_mem hw
        (by rw [h2t]; exact List.mem_append.2 (.inr (List.mem_cons_self _ _)))
    · have h1t : m.tree_.toList = L ++ R := h1
      have h2t : (FixedRedBlackTree.toList
          (⟨(m.tree_.root.insert entCmp { key := k, val := v, idx := i }).setBlack,
            rest⟩ : FixedRedBlackTree K V C))
          = L ++ ({ key := k, val := v, idx := i } : Ent K V) :: R := h2
      refine ⟨L.map fun e => (e.key, e.val), R.map fun e => (e.key, e.val), ?_, ?_⟩
      · rw [FixedMap.entries, FixedRedBlackTree.entries, h1t, List.map_append]
      · rw [FixedMap.entries, tree_of_mk, FixedRedBlackTree.entries, h2t,
          List.map_append, List.map_cons]

theorem claim_C9_insert_or_assign_witness :
    ∃ m2 : FixedMap Nat Nat 4,
      sampleOne.insert_or_assign 2 99 = some (m2, 0, false) ∧
      m2.size = sampleOne.size ∧
      m2.tree_.entry_at 0 = some { key := 2, val := 99, idx := 0 } :=
  have happ := (claim_C9_insert_or_assign sampleOne sampleOne_wf (by decide)
    2 99).1 { key := 2, val := 20, idx := 0 } rfl
  ⟨happ.choose, happ.choose_spec.1, happ.choose_spec.2.2.1,
    happ.choose_spec.2.2.2.1⟩

/-- C10: `begin() == end()` holds exactly when the map is empty, i.e. when
`size() == 0`: on an empty map the minimum-index lookup yields the null
index, which `begin()` replaces with the `CAPACITY` end sentinel, so the two
iterators coincide precisely when no entry exists. -/
theorem claim_C10_begin_end {K V : Type} [LinearOrder K] {C : Nat}
    (m : FixedMap K V C) (h : m.WF) (hC : C ≤ NULL_INDEX) :
    ((m.cbegin = m.cend) ↔ m.empty = true) ∧
    (m.empty = true ↔ m.size = 0) := by
  refine ⟨cbegin_eq_cend_iff h hC, ?_⟩
  simp [FixedMap.empty, FixedRedBlackTree.empty, FixedMap.size]

theorem claim_C10_begin_end_witness :
    ((sampleEmpty.cbegin = sampleEmpty.cend) ↔ sampleEmpty.empty = true) ∧
    ((sampleOne.cbegin = sampleOne.cend) ↔ sampleOne.empty = true) :=
  ⟨(claim_C10_begin_end sampleEmpty sampleEmpty_wf (by decide)).1,
   (claim_C10_begin_end sampleOne sampleOne_wf (by decide)).1⟩

end Claims

end FixedContainers
